import Mathlib

/-!
Shallow embedding of `src/flexget/validator.py` (a declarative schema /
data-validation engine) and proofs about the spec's claims.

Conventions of the embedding:
* Python values are modelled by `PyVal`.  Python 2's `bool` is a subclass of
  `int`, so `isinstance(x, int)` is true for booleans; the `is...` helpers
  mirror the `isinstance` checks that appear in the source.  Float payloads
  are modelled by integers: the validator logic only ever inspects the tag of
  a float and compares numbers for equality, never float arithmetic.
* Mapping keys are modelled as strings (every configuration mapping in the
  repository uses string keys, and the code formats keys with `'dict:%s'`).
* Code that can raise is modelled in `Option`: `none` is an escaped exception.
* External effects (`re`, `os.path`, the quality vocabulary) are supplied by a
  `PyOracle` record of pure functions.
-/

set_option maxHeartbeats 2000000
set_option maxRecDepth 4000

/-- Model of a Python 2 value as used by the validator: text, int, float,
bool, list or dict (string-keyed mapping). -/
inductive PyVal where
  | str (s : String)
  | int (n : Int)
  | float (n : Int)
  | bool (b : Bool)
  | list (xs : List PyVal)
  | dict (entries : List (String × PyVal))

/-- `isinstance(x, basestring)`. -/
def PyVal.isStr : PyVal → Bool
  | .str _ => true
  | _ => false

/-- `isinstance(x, int)` — in Python 2 this is also true for booleans. -/
def PyVal.isIntLike : PyVal → Bool
  | .int _ => true
  | .bool _ => true
  | _ => false

/-- `isinstance(x, float)`. -/
def PyVal.isFloat : PyVal → Bool
  | .float _ => true
  | _ => false

/-- `isinstance(x, bool)`. -/
def PyVal.isBool : PyVal → Bool
  | .bool _ => true
  | _ => false

/-- `isinstance(x, list)`. -/
def PyVal.isList : PyVal → Bool
  | .list _ => true
  | _ => false

/-- `isinstance(x, dict)`. -/
def PyVal.isDict : PyVal → Bool
  | .dict _ => true
  | _ => false

/-- `isinstance(x, (int, float, long))`. -/
def PyVal.isNumber (v : PyVal) : Bool := v.isIntLike || v.isFloat

/-- `isinstance(x, (basestring, int, float))`. -/
def PyVal.isScalarLike (v : PyVal) : Bool := v.isStr || v.isIntLike || v.isFloat

/-- Numeric value of a Python number (ints, floats and bools compare equal by
numeric value in Python: `True == 1`, `1 == 1.0`). -/
def pyNumVal : PyVal → Option Int
  | .int n => some n
  | .float n => some n
  | .bool b => some (if b then 1 else 0)
  | _ => none

/-- First binding of `k` in an association list (Python dict lookup; all
reachable dict states have distinct keys). -/
def lookupStr {α : Type} (k : String) : List (String × α) → Option α
  | [] => none
  | (k', v) :: rest => if k' == k then some v else lookupStr k rest

mutual
/-- Python `==` on modelled values: numbers compare by numeric value across
int/float/bool, strings as text, lists elementwise, dicts as mappings. -/
def pyEq : PyVal → PyVal → Bool
  | .str a, .str b => a == b
  | .list a, .list b => pyEqList a b
  | .dict a, .dict b => a.length == b.length && pyEqEntries a b
  | a, b =>
    match pyNumVal a, pyNumVal b with
    | some x, some y => x == y
    | _, _ => false

/-- Elementwise Python `==` on lists. -/
def pyEqList : List PyVal → List PyVal → Bool
  | [], [] => true
  | a :: as', b :: bs => pyEq a b && pyEqList as' bs
  | _, _ => false

/-- Every binding of the first mapping is matched by an equal binding of the
second (with equal lengths and distinct keys this is Python dict equality). -/
def pyEqEntries : List (String × PyVal) → List (String × PyVal) → Bool
  | [], _ => true
  | (k, v) :: rest, other =>
    (match lookupStr k other with
     | some v2 => pyEq v v2
     | none => false) && pyEqEntries rest other
end

/-- Python `x in l` (membership by `==`). -/
def pyIn (x : PyVal) (l : List PyVal) : Bool := l.any (fun v => pyEq v x)

/-- Python `l.index(x)`: index of the first element equal to `x` (callers only
use it when `x` occurs in `l`; out-of-range inputs would raise). -/
def pyIndex (x : PyVal) : List PyVal → Nat
  | [] => 0
  | v :: rest => if pyEq v x then 0 else pyIndex x rest + 1

mutual
/-- Python `unicode(v)` / `'%s' % v`.  The scalar cases are exact; the
list/dict cases approximate Python 2 container printing (they are never
exercised by the validators on the paths the claims are about, because
`validate_item` prints dedicated messages for mappings and sequences). -/
def pyStr : PyVal → String
  | .str s => s
  | .int n => toString n
  | .float n => toString n ++ ".0"
  | .bool b => if b then "True" else "False"
  | .list xs => "[" ++ String.intercalate ", " (pyReprList xs) ++ "]"
  | .dict es => "\x7b" ++ String.intercalate ", " (pyReprEntries es) ++ "\x7d"

/-- `repr` of list elements (Python 2 prints unicode text as `u'...'`; the
other cases render as `pyStr` does). -/
def pyRepr : PyVal → String
  | .str s => "u'" ++ s ++ "'"
  | .int n => toString n
  | .float n => toString n ++ ".0"
  | .bool b => if b then "True" else "False"
  | .list xs => "[" ++ String.intercalate ", " (pyReprList xs) ++ "]"
  | .dict es => "\x7b" ++ String.intercalate ", " (pyReprEntries es) ++ "\x7d"

/-- Helper for `pyStr` on lists. -/
def pyReprList : List PyVal → List String
  | [] => []
  | v :: rest => pyRepr v :: pyReprList rest

/-- Helper for `pyStr` on dicts. -/
def pyReprEntries : List (String × PyVal) → List String
  | [] => []
  | (k, v) :: rest => ("u'" ++ k ++ "': " ++ pyRepr v) :: pyReprEntries rest
end

/-! ## The diagnostics collector (`class Errors`) -/

/-- `Errors`: ordered message list, mutable path, and the single reused
nesting-depth marker (`path_level`, `None` initially, an `Int` because the
code decrements it to `-1` when the outermost level is removed). -/
structure Errors where
  messages : List String
  path : List String
  path_level : Option Int
  deriving DecidableEq

/-- `Errors.__init__`. -/
def Errors.init : Errors := ⟨[], [], none⟩

/-- `Errors.count`. -/
def Errors.count (e : Errors) : Nat := e.messages.length

/-- `Errors.add`: format `[/<path-joined>] <msg>` and append. -/
def Errors.add (e : Errors) (msg : String) : Errors :=
  { e with messages :=
      e.messages ++ ["[/" ++ String.intercalate "/" e.path ++ "] " ++ msg] }

/-- `Errors.back_out_errors(num)`: `if num > 0: del self.messages[0 - num:]`.
Python's `del l[-n:]` for `n > 0` removes the last `min(n, len(l))` items. -/
def Errors.back_out_errors (e : Errors) (num : Int) : Errors :=
  if num > 0 then
    { e with messages := e.messages.take (e.messages.length - num.toNat) }
  else e

/-- `Errors.path_add_level(value='?')`: record the current length as the
marker, then append the label. -/
def Errors.path_add_level (e : Errors) (value : String := "?") : Errors :=
  { e with path_level := some (e.path.length : Int), path := e.path ++ [value] }

/-- Python `del l[i]` with a possibly negative index; `none` is `IndexError`. -/
def pyDelAt (l : List String) (i : Int) : Option (List String) :=
  let j : Int := if i < 0 then i + l.length else i
  if 0 ≤ j ∧ j < l.length then some (l.eraseIdx j.toNat) else none

/-- Python `l[i] = v` with a possibly negative index; `none` is `IndexError`. -/
def pySetAt (l : List String) (i : Int) (v : String) : Option (List String) :=
  let j : Int := if i < 0 then i + l.length else i
  if 0 ≤ j ∧ j < l.length then some (l.set j.toNat v) else none

/-- `Errors.path_remove_level`: raises (`none`) when the marker is `None`
(`Exception('no path level')`) or when the deletion index is out of range
(`IndexError`); otherwise deletes the marked slot and decrements the marker. -/
def Errors.path_remove_level (e : Errors) : Option Errors :=
  match e.path_level with
  | none => none
  | some i =>
    (pyDelAt e.path i).map (fun p => { e with path := p, path_level := some (i - 1) })

/-- `Errors.path_update_value`: raises (`none`) when the marker is `None`,
otherwise rewrites the marked slot. -/
def Errors.path_update_value (e : Errors) (value : String) : Option Errors :=
  match e.path_level with
  | none => none
  | some i => (pySetAt e.path i value).map (fun p => { e with path := p })

/-! ## Rule nodes

One constructor per registered concrete rule kind.  Every node carries the
base-class `message` attribute (set from the `message` keyword argument and
used by `validate_item` and `RegexpMatchValidator.validate`).  The abstract
base (`registry['validator']`, whose `validate` always raises
`NotImplementedError`) and the attribute-proxying `LazyValidator` wrapper are
not rule states and are not modelled.  `interval` is `regexp_match` with a
preloaded pattern and message but its own registry name. -/
inductive Rule where
  | root (message : Option String) (valid : List Rule)
  | choice (message : Option String) (valid : List PyVal) (valid_ic : List String)
  | any (message : Option String)
  | equals (message : Option String) (valid : PyVal)
  | number (message : Option String)
  | integer (message : Option String)
  | decimal (message : Option String)
  | boolean (message : Option String)
  | text (message : Option String)
  | regexp (message : Option String)
  | regexp_match (message : Option String) (regexps : List String) (reject_regexps : List String)
  | interval (message : Option String) (regexps : List String) (reject_regexps : List String)
  | file (message : Option String)
  | path (message : Option String) (allow_replacement : Bool) (allow_missing : Bool)
  | url (message : Option String) (protocols : List String)
  | quality (message : Option String)
  | quality_requirements (message : Option String)
  | list (message : Option String) (valid : List Rule)
  | dict (message : Option String) (reject : List (String × Option String))
      (any_key : List Rule) (required_keys : List String)
      (key_validators : List (Rule × Rule))
      (valid : List (String × List Rule))

/-- The class-attribute `name` of each rule kind (its registry key). -/
def Rule.name : Rule → String
  | .root .. => "root"
  | .choice .. => "choice"
  | .any .. => "any"
  | .equals .. => "equals"
  | .number .. => "number"
  | .integer .. => "integer"
  | .decimal .. => "decimal"
  | .boolean .. => "boolean"
  | .text .. => "text"
  | .regexp .. => "regexp"
  | .regexp_match .. => "regexp_match"
  | .interval .. => "interval"
  | .file .. => "file"
  | .path .. => "path"
  | .url .. => "url"
  | .quality .. => "quality"
  | .quality_requirements .. => "quality_requirements"
  | .list .. => "list"
  | .dict .. => "dict"

/-- The `message` attribute of a rule node. -/
def Rule.message : Rule → Option String
  | .root m .. => m
  | .choice m .. => m
  | .any m => m
  | .equals m _ => m
  | .number m => m
  | .integer m => m
  | .decimal m => m
  | .boolean m => m
  | .text m => m
  | .regexp m => m
  | .regexp_match m .. => m
  | .interval m .. => m
  | .file m => m
  | .path m .. => m
  | .url m _ => m
  | .quality m => m
  | .quality_requirements m => m
  | .list m _ => m
  | .dict m .. => m

/-- `validateable(data)` of every rule kind (each one is a pure `isinstance`
shape check in the source; `root` and `any` accept everything, and the
text-based kinds inherit `TextValidator.validateable`). -/
def Rule.validateable : Rule → PyVal → Bool
  | .root .., _ => true
  | .choice .., d => d.isScalarLike
  | .any _, _ => true
  | .equals .., d => d.isScalarLike
  | .number _, d => d.isNumber
  | .integer _, d => d.isIntLike
  | .decimal _, d => d.isFloat
  | .boolean _, d => d.isBool
  | .text _, d => d.isStr
  | .regexp _, d => d.isStr
  | .regexp_match .., d => d.isStr
  | .interval .., d => d.isStr
  | .file _, d => d.isStr
  | .path .., d => d.isStr
  | .url .., d => d.isStr
  | .quality _, d => d.isStr
  | .quality_requirements _, d => d.isStr
  | .list .., d => d.isList
  | .dict .., d => d.isDict

/-- Pure oracles for the external collaborators of the engine: the `re`
module, `os.path`, and the quality vocabulary.  The quality fields are
modelled from the spec: `flexget.utils.qualities` is not part of the examined
sources, and the spec fixes only the contract "given text, succeed or produce
a descriptive error" (`none` = success, `some msg` = the `ValueError`
message). -/
structure PyOracle where
  reCompiles : String → Bool
  reMatch : String → String → Bool
  expanduser : String → String
  isfile : String → Bool
  isdir : String → Bool
  dirname : String → String
  jinjaSearchStart : String → Option Nat
  percentSearchStart : String → Option Nat
  qualityParse : String → Option String
  qualityReqParse : String → Option String

/-- The semantics of one candidate rule, as consumed by the shared loops:
its registry name, its `message` attribute, its `validateable` and its
`validate`. -/
structure RuleSem where
  name : String
  message : Option String
  vble : PyVal → Bool
  val : PyVal → Errors → Option (Bool × Errors)

/-- The english list built by `validate_item`:
`', '.join(acceptable[:-2] + ['']) + ' or '.join(acceptable[-2:])`. -/
def englishList (names : List String) : String :=
  String.intercalate ", " (names.take (names.length - 2) ++ [""]) ++
    String.intercalate " or " (names.drop (names.length - 2))

/-- The candidate loop of `Validator.validate_item`: the first rule that both
applies (`validateable`) and validates wins; on a win the errors added since
`count` are rolled back. -/
def validate_item_loop (item : PyVal) (count : Nat) :
    List RuleSem → Errors → Option (Bool × Errors)
  | [], e => some (false, e)
  | sem :: rest, e =>
    if sem.vble item then
      match sem.val item e with
      | none => none
      | some (true, e') => some (true, e'.back_out_errors ((e'.count : Int) - count))
      | some (false, e') => validate_item_loop item count rest e'
    else validate_item_loop item count rest e

/-- The failure tail of `Validator.validate_item`: if no candidate logged a
diagnostic, add every candidate's custom message; if there is still nothing,
synthesize the generic `must be a ...` messages. -/
def validate_item_fail (item : PyVal) (sems : List RuleSem) (count : Nat)
    (e : Errors) : Errors :=
  if e.count == count then
    let e1 := sems.foldl
      (fun acc sem => match sem.message with | some m => acc.add m | none => acc) e
    if e1.count == count then
      let acceptable := englishList (sems.map (fun s => s.name))
      let e2 := e1.add ("must be a `" ++ acceptable ++ "` value")
      if item.isDict then e2.add ("got a dict instead of " ++ acceptable)
      else if item.isList then e2.add ("got a list instead of " ++ acceptable)
      else e2.add ("value '" ++ pyStr item ++ "' is not valid " ++ acceptable)
    else e1
  else e

/-- `Validator.validate_item(item, rules)`: the shared alternative-selection
helper (first-success-wins with rollback, then the failure diagnostics). -/
def validate_item (item : PyVal) (sems : List RuleSem) (e : Errors) :
    Option (Bool × Errors) :=
  match validate_item_loop item e.count sems e with
  | none => none
  | some (true, e') => some (true, e')
  | some (false, e') => some (false, validate_item_fail item sems e.count e')

/-- Python `sorted` on strings (code-point lexicographic, stable). -/
def stringSort (l : List String) : List String := l.mergeSort (fun a b => a ≤ b)

/-- Python `unicode.lower()` (character-wise lower-casing). -/
def strLower (s : String) : String := ⟨s.data.map Char.toLower⟩

/-- `ChoiceValidator.validate`: the case-sensitive accepted list is checked
first, then the lower-cased input against the case-insensitive list (whose
entries `accept` stored lower-cased). -/
def choice_validate (valid : List PyVal) (valid_ic : List String) (d : PyVal)
    (e : Errors) : Bool × Errors :=
  if pyIn d valid then (true, e)
  else
    match d with
    | .str s =>
      if valid_ic.contains (strLower s) then (true, e)
      else
        (false, e.add ("'" ++ s ++ "' is not one of acceptable values: " ++
          String.intercalate ", " (stringSort (valid.map pyStr ++ valid_ic))))
    | _ =>
      (false, e.add ("'" ++ pyStr d ++ "' is not one of acceptable values: " ++
        String.intercalate ", " (stringSort (valid.map pyStr ++ valid_ic))))

/-- `ChoiceValidator.accept(value, ignore_case)`: non-scalar literals raise
(`none`); text accepted with `ignore_case` goes lower-cased into the
case-insensitive list, everything else into the case-sensitive list. -/
def choice_accept (valid : List PyVal) (valid_ic : List String) (value : PyVal)
    (ignore_case : Bool) : Option (List PyVal × List String) :=
  if value.isScalarLike then
    if value.isStr && ignore_case then
      match value with
      | .str s => some (valid, valid_ic ++ [strLower s])
      | _ => none
    else some (valid ++ [value], valid_ic)
  else none

/-- `NumberValidator.validate`. -/
def number_validate (d : PyVal) (e : Errors) : Bool × Errors :=
  if d.isNumber then (true, e)
  else (false, e.add ("value " ++ pyStr d ++ " is not valid number"))

/-- `IntegerValidator.validate`. -/
def integer_validate (d : PyVal) (e : Errors) : Bool × Errors :=
  if d.isIntLike then (true, e)
  else (false, e.add ("value " ++ pyStr d ++ " is not valid integer"))

/-- `DecimalValidator.validate`. -/
def decimal_validate (d : PyVal) (e : Errors) : Bool × Errors :=
  if d.isFloat then (true, e)
  else (false, e.add ("value " ++ pyStr d ++ " is not valid decimal number"))

/-- `BooleanValidator.validate`. -/
def boolean_validate (d : PyVal) (e : Errors) : Bool × Errors :=
  if d.isBool then (true, e)
  else (false, e.add ("value " ++ pyStr d ++ " is not valid boolean"))

/-- `TextValidator.validate`. -/
def text_validate (d : PyVal) (e : Errors) : Bool × Errors :=
  if d.isStr then (true, e)
  else (false, e.add ("value " ++ pyStr d ++ " is not valid text"))

/-- `RegexpValidator.validate`: the value must be text that compiles as a
regular expression. -/
def regexp_validate (o : PyOracle) (d : PyVal) (e : Errors) : Bool × Errors :=
  match d with
  | .str s =>
    if o.reCompiles s then (true, e)
    else (false, e.add (s ++ " is not a valid regular expression"))
  | _ => (false, e.add "Value should be text")

/-- `RegexpMatchValidator.validate`: reject patterns are checked first and
short-circuit; otherwise the first accepted pattern that matches wins; on
failure the custom message is preferred over the generic one. -/
def regexp_match_validate (o : PyOracle) (message : Option String)
    (regexps reject_regexps : List String) (d : PyVal) (e : Errors) :
    Bool × Errors :=
  match d with
  | .str s =>
    if reject_regexps.any (fun p => o.reMatch p s) then
      (false, e.add (match message with
        | some m => m
        | none => s ++ " does not match regexp"))
    else if regexps.any (fun p => o.reMatch p s) then (true, e)
    else
      (false, e.add (match message with
        | some m => m
        | none => s ++ " does not match regexp"))
  | _ => (false, e.add "Value should be text")

/-- `FileValidator.validate`: non-text input raises inside `os.path`
(`none`); otherwise the expanded path must name an existing file. -/
def file_validate (o : PyOracle) (d : PyVal) (e : Errors) :
    Option (Bool × Errors) :=
  match d with
  | .str s =>
    if o.isfile (o.expanduser s) then some (true, e)
    else some (false, e.add ("File " ++ s ++ " does not exist"))
  | _ => none

/-- The final existence check of `PathValidator.validate` on the (possibly
placeholder-truncated) path string. -/
def path_check (o : PyOracle) (allow_missing : Bool) (p : String) (e : Errors) :
    Bool × Errors :=
  if !allow_missing && !(o.isdir (o.expanduser p)) then
    (false, e.add ("Path " ++ p ++ " does not exist"))
  else (true, e)

/-- `PathValidator.validate`.  With `allow_replacement` the part before the
first placeholder (template marker, else legacy percent specifier) is
validated; the search raises on non-text (`none`).  Note that with
`allow_missing` and without `allow_replacement` the conjunction
`not allow_missing and not isdir(...)` short-circuits before any string
operation, so every value — text or not — validates. -/
def path_validate (o : PyOracle) (allow_replacement allow_missing : Bool)
    (d : PyVal) (e : Errors) : Option (Bool × Errors) :=
  if allow_replacement then
    match d with
    | .str s =>
      let start? := match o.jinjaSearchStart s with
        | some st => some st
        | none => o.percentSearchStart s
      let p := match start? with
        | some st => o.dirname (s.take st)
        | none => s
      some (path_check o allow_missing p e)
    | _ => none
  else
    if allow_missing then some (true, e)
    else
      match d with
      | .str s => some (path_check o allow_missing s e)
      | _ => none

/-- `UrlValidator.validate`: text matching the scheme-qualified URL regular
expression built from the accepted protocol list. -/
def url_validate (o : PyOracle) (protocols : List String) (d : PyVal)
    (e : Errors) : Bool × Errors :=
  let pattern := "(" ++ String.intercalate "|" protocols ++
    "):\\/\\/(\\w+:\x7b0,1\x7d\\w*@)?(\\S+)(:[0-9]+)?(\\/|\\/([\\w#!:.?+=&%@!\\-\\/]))?"
  match d with
  | .str s =>
    if o.reMatch pattern s then (true, e)
    else (false, e.add ("value " ++ s ++ " is not a valid url"))
  | _ => (false, e.add "expecting text")

/-- `QualityValidator.validate` (vocabulary modelled from the spec: the
collaborator consumes text; non-text raises, `none`). -/
def quality_validate (o : PyOracle) (d : PyVal) (e : Errors) :
    Option (Bool × Errors) :=
  match d with
  | .str s =>
    match o.qualityParse s with
    | none => some (true, e)
    | some m => some (false, e.add m)
  | _ => none

/-- `QualityRequirementsValidator.validate` (vocabulary modelled from the
spec, as for `quality_validate`). -/
def quality_requirements_validate (o : PyOracle) (d : PyVal) (e : Errors) :
    Option (Bool × Errors) :=
  match d with
  | .str s =>
    match o.qualityReqParse s with
    | none => some (true, e)
    | some m =>
      some (false, e.add ("`" ++ s ++ "` is not a valid quality requirement: " ++ m))
  | _ => none

/-- The element loop of `ListValidator.validate`: each element's path label is
`'list:%i' % data.index(item)` (the index of the first equal element of the
full input), and the result of `validate_item` is discarded. -/
def list_elems_loop (full : List PyVal) (sems : List RuleSem) :
    List PyVal → Errors → Option Errors
  | [], e => some e
  | x :: rest, e =>
    match e.path_update_value ("list:" ++ toString (pyIndex x full)) with
    | none => none
    | some e1 =>
      match validate_item x sems e1 with
      | none => none
      | some (_, e2) => list_elems_loop full sems rest e2

/-- `ListValidator.validate`: open a path level, record the count, validate
every element, close the level; succeed iff the count is unchanged. -/
def list_validate (sems : List RuleSem) (d : PyVal) (e : Errors) :
    Option (Bool × Errors) :=
  match d with
  | .list xs =>
    let e1 := e.path_add_level
    let count := e1.count
    match list_elems_loop xs sems xs e1 with
    | none => none
    | some e2 =>
      match e2.path_remove_level with
      | none => none
      | some e3 => some (count == e3.count, e3)
  | _ => some (false, e.add "value must be a list")

/-- The mapping-rule state at the semantic level (`DictValidator`'s
`reject`, `any_key`, `required_keys`, `key_validators` and `valid`). -/
structure DictSem where
  reject : List (String × Option String)
  any_key : List RuleSem
  required_keys : List String
  key_validators : List (RuleSem × RuleSem)
  valid : List (String × List RuleSem)

/-- Simplified model of
`string.Template(msg).safe_substitute(key=key)` for the placeholder patterns
actually written by callers (`${key}` and `$key`). -/
def templateSubstituteKey (msg key : String) : String :=
  (msg.replace ("$\x7bkey\x7d") key).replace ("$key") key

/-- The `key_validators` loop of `DictValidator.validate`: the first
key-predicate rule (in registration order) that applies to and validates the
key supplies the value rule. -/
def key_validators_loop (key : String) :
    List (RuleSem × RuleSem) → Errors → Option (Option RuleSem × Errors)
  | [], e => some (none, e)
  | (kv, vv) :: rest, e =>
    if kv.vble (.str key) then
      match kv.val (.str key) e with
      | none => none
      | some (true, e') => some (some vv, e')
      | some (false, e') => key_validators_loop key rest e'
    else key_validators_loop key rest e

/-- The tail of the per-key body of `DictValidator.validate`: with no rules,
emit `key ... is not recognized` (listing the sorted known keys when any
explicit keys exist); otherwise run `validate_item` (result discarded). -/
def dict_finish_key (ds : DictSem) (key : String) (value : PyVal)
    (rules : List RuleSem) (e : Errors) : Option Errors :=
  if rules.isEmpty then
    some (e.add ("key '" ++ key ++ "' is not recognized" ++
      (if ds.valid.isEmpty then ""
       else ", valid keys: " ++
         String.intercalate ", " (stringSort (ds.valid.map (fun kv => kv.1))))))
  else
    match validate_item value rules e with
    | none => none
    | some (_, e') => some e'

/-- The per-key body of `DictValidator.validate` (after the path label
update): reject set first, then explicit per-key rules, then the first
matching key-predicate rule, then the catch-all; diagnostics produced while
testing key predicates are rolled back whenever some rules were selected. -/
def dict_process_key (ds : DictSem) (key : String) (value : PyVal)
    (e : Errors) : Option Errors :=
  match lookupStr key ds.reject with
  | some msg? =>
    match msg? with
    | some m => some (e.add (templateSubstituteKey m key))
    | none => some (e.add ("key '" ++ key ++ "' is forbidden here"))
  | none =>
    match lookupStr key ds.valid with
    | some rs => dict_finish_key ds key value rs e
    | none =>
      let errors_before_key_val := e.count
      match key_validators_loop key ds.key_validators e with
      | none => none
      | some (found?, e1) =>
        let rules := match found? with
          | some vv => [vv]
          | none => ds.any_key
        let e2 :=
          if rules.isEmpty then e1
          else e1.back_out_errors ((e1.count : Int) - errors_before_key_val)
        dict_finish_key ds key value rules e2

/-- The entry loop of `DictValidator.validate`: update the path label to
`'dict:%s' % key`, then run the per-key body. -/
def dict_entries_loop (ds : DictSem) :
    List (String × PyVal) → Errors → Option Errors
  | [], e => some e
  | (k, v) :: rest, e =>
    match e.path_update_value ("dict:" ++ k) with
    | none => none
    | some e1 =>
      match dict_process_key ds k v e1 with
      | none => none
      | some e2 => dict_entries_loop ds rest e2

/-- `DictValidator.validate`: record the count, open a path level, process
every present key, close the level, then emit one missing-required-key
diagnostic per absent required key; succeed iff the count is unchanged. -/
def dict_validate (ds : DictSem) (d : PyVal) (e : Errors) :
    Option (Bool × Errors) :=
  match d with
  | .dict entries =>
    let count := e.count
    let e1 := e.path_add_level
    match dict_entries_loop ds entries e1 with
    | none => none
    | some e2 =>
      match e2.path_remove_level with
      | none => none
      | some e3 =>
        let e4 := ds.required_keys.foldl
          (fun acc k =>
            if entries.any (fun kv => kv.1 == k) then acc
            else acc.add ("key '" ++ k ++ "' required")) e3
        some (count == e4.count, e4)
  | _ => some (false, e.add "value must be a dictionary")

mutual
/-- `validate(data)` of every rule kind, over the oracle `o`.  Composite
rules consume the semantics (`RuleSem`) of their children. -/
def validate (o : PyOracle) : Rule → PyVal → Errors → Option (Bool × Errors)
  | .root _ valid => fun d e => validate_item d (toSems o valid) e
  | .choice _ valid valid_ic => fun d e => some (choice_validate valid valid_ic d e)
  | .any _ => fun _ e => some (true, e)
  | .equals _ v => fun d e => some (pyEq v d, e)
  | .number _ => fun d e => some (number_validate d e)
  | .integer _ => fun d e => some (integer_validate d e)
  | .decimal _ => fun d e => some (decimal_validate d e)
  | .boolean _ => fun d e => some (boolean_validate d e)
  | .text _ => fun d e => some (text_validate d e)
  | .regexp _ => fun d e => some (regexp_validate o d e)
  | .regexp_match m rs rj => fun d e => some (regexp_match_validate o m rs rj d e)
  | .interval m rs rj => fun d e => some (regexp_match_validate o m rs rj d e)
  | .file _ => fun d e => file_validate o d e
  | .path _ ar am => fun d e => path_validate o ar am d e
  | .url _ protocols => fun d e => some (url_validate o protocols d e)
  | .quality _ => fun d e => quality_validate o d e
  | .quality_requirements _ => fun d e => quality_requirements_validate o d e
  | .list _ valid => fun d e => list_validate (toSems o valid) d e
  | .dict _ reject any_key required_keys key_validators valid => fun d e =>
    dict_validate
      ⟨reject, toSems o any_key, required_keys,
        toSemPairs o key_validators, toSemsAssoc o valid⟩ d e

/-- The semantics of a list of child rules. -/
def toSems (o : PyOracle) : List Rule → List RuleSem
  | [] => []
  | r :: rest =>
    ⟨r.name, r.message, r.validateable, validate o r⟩ :: toSems o rest

/-- The semantics of the `key_validators` pairs. -/
def toSemPairs (o : PyOracle) :
    List (Rule × Rule) → List (RuleSem × RuleSem)
  | [] => []
  | (a, b) :: rest =>
    (⟨a.name, a.message, a.validateable, validate o a⟩,
     ⟨b.name, b.message, b.validateable, validate o b⟩) :: toSemPairs o rest

/-- The semantics of the explicit per-key rule lists. -/
def toSemsAssoc (o : PyOracle) :
    List (String × List Rule) → List (String × List RuleSem)
  | [] => []
  | (k, rs) :: rest => (k, toSems o rs) :: toSemsAssoc o rest
end

/-- The semantics record of a single rule. -/
def toSem (o : PyOracle) (r : Rule) : RuleSem :=
  ⟨r.name, r.message, r.validateable, validate o r⟩

/-- A fixed, fully concrete oracle used for closed evaluations (claims that
do not involve the external collaborators at all). -/
def oracle0 : PyOracle :=
  ⟨fun _ => true, fun _ _ => false, fun s => s, fun _ => false, fun _ => false,
   fun s => s, fun _ => none, fun _ => none, fun _ => none, fun _ => none⟩

/-- The bare boolean result of one rule's `validate` (run from a fresh
collector; the result booleans are proved below not to depend on the
collector state). -/
def semB (sem : RuleSem) (d : PyVal) : Bool :=
  match sem.val d Errors.init with
  | some (b, _) => b
  | none => false

/-- The bare boolean result of `validate_item`. -/
def itemB (sems : List RuleSem) (d : PyVal) : Bool :=
  match validate_item d sems Errors.init with
  | some (b, _) => b
  | none => false

/-- The bare boolean result of a rule's `validate` over the oracle `o`. -/
def vB (o : PyOracle) (r : Rule) (d : PyVal) : Bool := semB (toSem o r) d

/-- Whether processing the key/value pair `(k, v)` of a mapping input leaves
at least one net diagnostic behind (the pure per-key failure predicate,
mirroring the per-key priority of `DictValidator.validate`). -/
def dictKeyFails (ds : DictSem) (k : String) (v : PyVal) : Bool :=
  match lookupStr k ds.reject with
  | some _ => true
  | none =>
    match lookupStr k ds.valid with
    | some rs => if rs.isEmpty then true else !(itemB rs v)
    | none =>
      match ds.key_validators.find? (fun kv => kv.1.vble (.str k) && semB kv.1 (.str k)) with
      | some kvvv => !(itemB [kvvv.2] v)
      | none => if ds.any_key.isEmpty then true else !(itemB ds.any_key v)

/-- The pure boolean result of `DictValidator.validate` on a mapping input:
no present key fails and no required key is absent. -/
def dictB (ds : DictSem) (entries : List (String × PyVal)) : Bool :=
  !(entries.any fun kv => dictKeyFails ds kv.1 kv.2) &&
  (ds.required_keys.all fun k => entries.any fun kv => kv.1 == k)

/-- The missing required keys of a mapping input, in registration order. -/
def missingRequired (ds : DictSem) (entries : List (String × PyVal)) : List String :=
  ds.required_keys.filter fun k => !(entries.any fun kv => kv.1 == k)

/-- The rule states on which `validate` returning true implies `validateable`
(the well-formedness visible at the top node): `equals` and `choice` literals
are scalars (`choice.accept` enforces this, `equals.accept` stores whatever
it is given), and a `path` rule does not combine `allow_missing` with absent
`allow_replacement` (that combination short-circuits to true on any value). -/
def topShapeOK : Rule → Bool
  | .equals _ v => v.isScalarLike
  | .choice _ valid _ => valid.all PyVal.isScalarLike
  | .path _ ar am => !am || ar
  | _ => true

/-! ## Path-marker call sequences (for the `close()` discipline) -/

/-- One call against the collector's path marker: `path_add_level`,
`path_update_value` or `path_remove_level`. -/
inductive PathOp where
  | add (label : String)
  | update (label : String)
  | remove

/-- Execute one path call (`none` = the call raised). -/
def PathOp.step : PathOp → Errors → Option Errors
  | .add l, e => some (e.path_add_level l)
  | .update l, e => e.path_update_value l
  | .remove, e => e.path_remove_level

/-- Execute a sequence of path calls. -/
def execPathOps : List PathOp → Errors → Option Errors
  | [], e => some e
  | op :: rest, e =>
    match op.step e with
    | none => none
    | some e' => execPathOps rest e'

/-- Balanced discipline for a call sequence starting at nesting depth `d`:
`update` and `remove` only happen inside an open level (exactly the strict
call-stack nesting of the recursive validation calls). -/
def wellNestedFrom (d : Nat) : List PathOp → Bool
  | [] => true
  | .add _ :: rest => wellNestedFrom (d + 1) rest
  | .update _ :: rest => decide (0 < d) && wellNestedFrom d rest
  | .remove :: rest => decide (0 < d) && wellNestedFrom (d - 1) rest

/-- Nesting depth left open by a call sequence starting at depth `d`. -/
def finalDepth (d : Nat) : List PathOp → Nat
  | [] => d
  | .add _ :: rest => finalDepth (d + 1) rest
  | .update _ :: rest => finalDepth d rest
  | .remove :: rest => finalDepth (d - 1) rest

/-! ## Schema synthesis -/

/-- A JSON-Schema-like structural document (string atoms, booleans, embedded
Python literal values for `enum`, arrays and objects). -/
inductive SDoc where
  | str (s : String)
  | bool (b : Bool)
  | val (v : PyVal)
  | arr (xs : List SDoc)
  | obj (fields : List (String × SDoc))

/-- `any_schema(schema_list)`: collapse to the sole schema when there is
exactly one, else wrap in `anyOf`. -/
def any_schema : List SDoc → SDoc
  | [s] => s
  | l => .obj [("anyOf", .arr l)]

/-- Python `d[k] = v` on a schema document (insertion appends the binding;
only ever applied to objects). -/
def sdocSetField (d : SDoc) (k : String) (v : SDoc) : SDoc :=
  match d with
  | .obj fs => .obj (fs ++ [(k, v)])
  | other => other

mutual
/-- `schema()` of every rule kind.  `none` models an escaped exception: the
`properties` loop of `DictValidator.schema` (line 702) passes a generator of
raw validator objects — not their schemas — to `any_schema`, whose
`len(schema_list)` raises `TypeError` as soon as some key has a non-empty
rule list. -/
def Rule.schema : Rule → Option SDoc
  | .root _ valid =>
    match schemaList valid with
    | none => none
    | some xs => some (any_schema xs)
  | .choice _ valid valid_ic =>
    some (.obj [("enum", .arr (valid.map SDoc.val ++
      valid_ic.map (fun s => SDoc.val (.str s))))])
  | .any _ => some (.obj [])
  | .equals _ v => some (.obj [("enum", .arr [SDoc.val v])])
  | .number _ => some (.obj [("type", .str "number")])
  | .integer _ => some (.obj [("type", .str "integer")])
  | .decimal _ => some (.obj [("type", .str "number")])
  | .boolean _ => some (.obj [("type", .str "boolean")])
  | .text _ => some (.obj [("type", .str "string")])
  | .regexp _ => some (.obj [("type", .str "string"), ("format", .str "regex")])
  | .regexp_match _ regexps rejects =>
    let base := any_schema (regexps.map fun p =>
      .obj [("type", .str "string"), ("pattern", .str p)])
    if rejects.isEmpty then some base
    else some (sdocSetField base "not"
      (any_schema (rejects.map fun p => .obj [("pattern", .str p)])))
  | .interval _ regexps rejects =>
    let base := any_schema (regexps.map fun p =>
      .obj [("type", .str "string"), ("pattern", .str p)])
    if rejects.isEmpty then some base
    else some (sdocSetField base "not"
      (any_schema (rejects.map fun p => .obj [("pattern", .str p)])))
  | .file _ => some (.obj [("type", .str "string"), ("format", .str "file")])
  | .path _ _ _ => some (.obj [("type", .str "string"), ("format", .str "path")])
  | .url _ _ => some (.obj [("type", .str "string"), ("format", .str "uri")])
  | .quality _ => some (.obj [("type", .str "string"), ("format", .str "quality")])
  | .quality_requirements _ =>
    some (.obj [("type", .str "string"), ("format", .str "qualityRequirements")])
  | .list _ valid =>
    match schemaList valid with
    | none => none
    | some xs => some (.obj [("type", .str "array"), ("items", any_schema xs)])
  | .dict _ _ any_key required_keys _ valid =>
    if valid.all (fun kv => kv.2.isEmpty) then
      match (if any_key.isEmpty then some (SDoc.bool false)
             else match schemaList any_key with
                  | none => none
                  | some xs => some (any_schema xs)) with
      | none => none
      | some ap =>
        some (.obj ([("type", .str "object"), ("properties", .obj [])] ++
          (if required_keys.isEmpty then []
           else [("required", .arr (required_keys.map SDoc.str))]) ++
          [("additionalProperties", ap)]))
    else none

/-- The schemas of a list of child rules (`none` as soon as one raises). -/
def schemaList : List Rule → Option (List SDoc)
  | [] => some []
  | r :: rest =>
    match r.schema with
    | none => none
    | some s =>
      match schemaList rest with
      | none => none
      | some ss => some (s :: ss)
end

/-- The invariant package of one candidate's semantics, proved below for
every rule kind: (`total`) `validate` cannot raise on data the rule is
`validateable` for; (`frame`) `validate` restores the path, moves the marker
only to the slot below the current path top, only appends messages, and on
success leaves the messages exactly as they were; (`strFrame`) on text input
the marker is untouched; (`pure`) whether `validate` raises and which boolean
it returns do not depend on the collector state. -/
structure SemOK (sem : RuleSem) : Prop where
  total : ∀ d e, sem.vble d = true → (sem.val d e).isSome = true
  frame : ∀ d e b e', sem.val d e = some (b, e') →
    e'.path = e.path ∧
    (e'.path_level = e.path_level ∨ e'.path_level = some ((e.path.length : Int) - 1)) ∧
    (∃ ex, e'.messages = e.messages ++ ex) ∧
    (b = true → e'.messages = e.messages)
  strFrame : ∀ s e b e', sem.val (.str s) e = some (b, e') → e'.path_level = e.path_level
  pure : ∀ d e1 e2, (sem.val d e1).map Prod.fst = (sem.val d e2).map Prod.fst

/-- All child semantics of a mapping-rule state satisfy the invariant
package. -/
def DictSemOK (ds : DictSem) : Prop :=
  (∀ s ∈ ds.any_key, SemOK s) ∧
  (∀ p ∈ ds.key_validators, SemOK p.1 ∧ SemOK p.2) ∧
  (∀ kv ∈ ds.valid, ∀ s ∈ kv.2, SemOK s)

/-! ## Basic facts about the collector -/

theorem Errors.eq_of_fields {a b : Errors} (h1 : a.messages = b.messages)
    (h2 : a.path = b.path) (h3 : a.path_level = b.path_level) : a = b := by
  cases a; cases b; simp_all

theorem Errors.add_messages (e : Errors) (m : String) :
    (e.add m).messages =
      e.messages ++ ["[/" ++ String.intercalate "/" e.path ++ "] " ++ m] := rfl

theorem Errors.add_path (e : Errors) (m : String) : (e.add m).path = e.path := rfl

theorem Errors.add_path_level (e : Errors) (m : String) :
    (e.add m).path_level = e.path_level := rfl

theorem Errors.add_count (e : Errors) (m : String) : (e.add m).count = e.count + 1 := by
  simp [Errors.add, Errors.count]

theorem Errors.count_eq_length (e : Errors) : e.count = e.messages.length := rfl

/-- Rolling back exactly the messages added since a base state restores it
(provided path and marker are unchanged). -/
theorem Errors.back_out_restore {e e0 : Errors} {junk : List String}
    (hm : e.messages = e0.messages ++ junk) (hp : e.path = e0.path)
    (hl : e.path_level = e0.path_level) :
    e.back_out_errors ((e.count : Int) - e0.count) = e0 := by
  have hc : e.messages.length = e0.messages.length + junk.length := by simp [hm]
  have hnum : ((e.count : Int) - e0.count) = (junk.length : Int) := by
    simp only [Errors.count_eq_length]
    omega
  rw [hnum]
  by_cases hj : junk.length = 0
  · rw [List.length_eq_zero] at hj
    subst hj
    rw [List.append_nil] at hm
    unfold Errors.back_out_errors
    rw [if_neg (by simp)]
    exact Errors.eq_of_fields hm hp hl
  · unfold Errors.back_out_errors
    rw [if_pos (by exact_mod_cast Nat.pos_of_ne_zero hj)]
    refine Errors.eq_of_fields ?_ hp hl
    show e.messages.take (e.messages.length - ((junk.length : Int)).toNat) = e0.messages
    rw [Int.toNat_natCast, hm]
    simp

/-- `back_out_errors` down to a recorded count keeps the first `c` messages
(and everything else of the state). -/
theorem Errors.back_out_take (e : Errors) (c : Nat) :
    e.back_out_errors ((e.count : Int) - c) = { e with messages := e.messages.take c } := by
  unfold Errors.back_out_errors
  by_cases h : c < e.count
  · rw [if_pos (by omega)]
    have h1 : e.messages.length - ((e.count : Int) - c).toNat = c := by
      simp only [Errors.count_eq_length] at h ⊢
      omega
    rw [h1]
  · rw [if_neg (by omega)]
    have h1 : e.messages.take c = e.messages := by
      apply List.take_of_length_le
      simp only [Errors.count_eq_length] at h
      omega
    refine Errors.eq_of_fields ?_ rfl rfl
    exact h1.symm

/-! ## The shared invariants of every rule's `validate` -/

/-- Leaf validators have one of three shapes on each datum: return a fixed
boolean leaving the collector untouched, add one fixed message and fail, or
raise on data they are not `validateable` for.  Any such semantics satisfies
the invariant package. -/
theorem semOK_of_shape (sem : RuleSem)
    (h : ∀ d, (∃ bb, ∀ e, sem.val d e = some (bb, e)) ∨
      (∃ m, ∀ e, sem.val d e = some (false, e.add m)) ∨
      ((∀ e, sem.val d e = none) ∧ sem.vble d = false)) : SemOK sem := by
  constructor
  · intro d e hv
    rcases h d with ⟨bb, hb⟩ | ⟨m, hb⟩ | ⟨hn, hvf⟩
    · rw [hb]; rfl
    · rw [hb]; rfl
    · rw [hvf] at hv; cases hv
  · intro d e b e' hval
    rcases h d with ⟨bb, hb⟩ | ⟨m, hb⟩ | ⟨hn, _⟩
    · rw [hb e] at hval
      obtain ⟨rfl, rfl⟩ : bb = b ∧ e = e' := by simpa using hval
      exact ⟨rfl, Or.inl rfl, ⟨[], by simp⟩, fun _ => rfl⟩
    · rw [hb e] at hval
      obtain ⟨hb', rfl⟩ : false = b ∧ e.add m = e' := by simpa using hval
      refine ⟨Errors.add_path e m, Or.inl (Errors.add_path_level e m),
        ⟨_, Errors.add_messages e m⟩, fun hbt => ?_⟩
      rw [← hb'] at hbt; cases hbt
    · rw [hn e] at hval; cases hval
  · intro s e b e' hval
    rcases h (.str s) with ⟨bb, hb⟩ | ⟨m, hb⟩ | ⟨hn, _⟩
    · rw [hb e] at hval
      obtain ⟨_, rfl⟩ : bb = b ∧ e = e' := by simpa using hval
      rfl
    · rw [hb e] at hval
      obtain ⟨_, rfl⟩ : false = b ∧ e.add m = e' := by simpa using hval
      exact Errors.add_path_level e m
    · rw [hn e] at hval; cases hval
  · intro d e1 e2
    rcases h d with ⟨bb, hb⟩ | ⟨m, hb⟩ | ⟨hn, _⟩
    · simp [hb e1, hb e2]
    · simp [hb e1, hb e2]
    · simp [hn e1, hn e2]

theorem semOK_text (o : PyOracle) (m : Option String) : SemOK (toSem o (.text m)) := by
  apply semOK_of_shape
  intro d
  by_cases hd : d.isStr = true
  · exact Or.inl ⟨true, fun e => by simp [toSem, validate, text_validate, hd]⟩
  · exact Or.inr (Or.inl ⟨"value " ++ pyStr d ++ " is not valid text",
      fun e => by simp [toSem, validate, text_validate, hd]⟩)

theorem semOK_number (o : PyOracle) (m : Option String) : SemOK (toSem o (.number m)) := by
  apply semOK_of_shape
  intro d
  by_cases hd : d.isNumber = true
  · exact Or.inl ⟨true, fun e => by simp [toSem, validate, number_validate, hd]⟩
  · exact Or.inr (Or.inl ⟨"value " ++ pyStr d ++ " is not valid number",
      fun e => by simp [toSem, validate, number_validate, hd]⟩)

theorem semOK_integer (o : PyOracle) (m : Option String) : SemOK (toSem o (.integer m)) := by
  apply semOK_of_shape
  intro d
  by_cases hd : d.isIntLike = true
  · exact Or.inl ⟨true, fun e => by simp [toSem, validate, integer_validate, hd]⟩
  · exact Or.inr (Or.inl ⟨"value " ++ pyStr d ++ " is not valid integer",
      fun e => by simp [toSem, validate, integer_validate, hd]⟩)

theorem semOK_decimal (o : PyOracle) (m : Option String) : SemOK (toSem o (.decimal m)) := by
  apply semOK_of_shape
  intro d
  by_cases hd : d.isFloat = true
  · exact Or.inl ⟨true, fun e => by simp [toSem, validate, decimal_validate, hd]⟩
  · exact Or.inr (Or.inl ⟨"value " ++ pyStr d ++ " is not valid decimal number",
      fun e => by simp [toSem, validate, decimal_validate, hd]⟩)

theorem semOK_boolean (o : PyOracle) (m : Option String) : SemOK (toSem o (.boolean m)) := by
  apply semOK_of_shape
  intro d
  by_cases hd : d.isBool = true
  · exact Or.inl ⟨true, fun e => by simp [toSem, validate, boolean_validate, hd]⟩
  · exact Or.inr (Or.inl ⟨"value " ++ pyStr d ++ " is not valid boolean",
      fun e => by simp [toSem, validate, boolean_validate, hd]⟩)

theorem semOK_any (o : PyOracle) (m : Option String) : SemOK (toSem o (.any m)) := by
  apply semOK_of_shape
  intro d
  exact Or.inl ⟨true, fun e => by simp [toSem, validate]⟩

theorem semOK_equals (o : PyOracle) (m : Option String) (v : PyVal) :
    SemOK (toSem o (.equals m v)) := by
  apply semOK_of_shape
  intro d
  exact Or.inl ⟨pyEq v d, fun e => by simp [toSem, validate]⟩

theorem semOK_choice (o : PyOracle) (m : Option String) (valid : List PyVal)
    (valid_ic : List String) : SemOK (toSem o (.choice m valid valid_ic)) := by
  apply semOK_of_shape
  intro d
  by_cases hin : pyIn d valid = true
  · exact Or.inl ⟨true, fun e => by simp [toSem, validate, choice_validate, hin]⟩
  · cases d with
    | str s =>
      by_cases hic : strLower s ∈ valid_ic
      · exact Or.inl ⟨true, fun e => by simp [toSem, validate, choice_validate, hin, hic]⟩
      · exact Or.inr (Or.inl ⟨"'" ++ s ++ "' is not one of acceptable values: " ++
          String.intercalate ", " (stringSort (valid.map pyStr ++ valid_ic)),
          fun e => by simp [toSem, validate, choice_validate, hin, hic]⟩)
    | int n => exact Or.inr (Or.inl ⟨"'" ++ pyStr (.int n) ++ "' is not one of acceptable values: " ++
        String.intercalate ", " (stringSort (valid.map pyStr ++ valid_ic)),
        fun e => by simp [toSem, validate, choice_validate, hin]⟩)
    | float n => exact Or.inr (Or.inl ⟨"'" ++ pyStr (.float n) ++ "' is not one of acceptable values: " ++
        String.intercalate ", " (stringSort (valid.map pyStr ++ valid_ic)),
        fun e => by simp [toSem, validate, choice_validate, hin]⟩)
    | bool b => exact Or.inr (Or.inl ⟨"'" ++ pyStr (.bool b) ++ "' is not one of acceptable values: " ++
        String.intercalate ", " (stringSort (valid.map pyStr ++ valid_ic)),
        fun e => by simp [toSem, validate, choice_validate, hin]⟩)
    | list xs => exact Or.inr (Or.inl ⟨"'" ++ pyStr (.list xs) ++ "' is not one of acceptable values: " ++
        String.intercalate ", " (stringSort (valid.map pyStr ++ valid_ic)),
        fun e => by simp [toSem, validate, choice_validate, hin]⟩)
    | dict es => exact Or.inr (Or.inl ⟨"'" ++ pyStr (.dict es) ++ "' is not one of acceptable values: " ++
        String.intercalate ", " (stringSort (valid.map pyStr ++ valid_ic)),
        fun e => by simp [toSem, validate, choice_validate, hin]⟩)

theorem semOK_regexp (o : PyOracle) (m : Option String) : SemOK (toSem o (.regexp m)) := by
  apply semOK_of_shape
  intro d
  cases d with
  | str s =>
    by_cases hc : o.reCompiles s = true
    · exact Or.inl ⟨true, fun e => by simp [toSem, validate, regexp_validate, hc]⟩
    · exact Or.inr (Or.inl ⟨s ++ " is not a valid regular expression",
        fun e => by simp [toSem, validate, regexp_validate, hc]⟩)
  | int n => exact Or.inr (Or.inl ⟨"Value should be text", fun e => by simp [toSem, validate, regexp_validate]⟩)
  | float n => exact Or.inr (Or.inl ⟨"Value should be text", fun e => by simp [toSem, validate, regexp_validate]⟩)
  | bool b => exact Or.inr (Or.inl ⟨"Value should be text", fun e => by simp [toSem, validate, regexp_validate]⟩)
  | list xs => exact Or.inr (Or.inl ⟨"Value should be text", fun e => by simp [toSem, validate, regexp_validate]⟩)
  | dict es => exact Or.inr (Or.inl ⟨"Value should be text", fun e => by simp [toSem, validate, regexp_validate]⟩)

/-- Shape analysis shared by `regexp_match` and `interval` semantics. -/
theorem regexp_match_shape (o : PyOracle) (m : Option String) (rs rj : List String)
    (val : PyVal → Errors → Option (Bool × Errors))
    (hval : ∀ d e, val d e = some (regexp_match_validate o m rs rj d e)) (d : PyVal) :
    (∀ e, val d e = some (true, e)) ∨
      (∃ mm, ∀ e, val d e = some (false, e.add mm)) := by
  cases d with
  | str s =>
    by_cases hrj : rj.any (fun p => o.reMatch p s) = true
    · cases m with
      | none => exact Or.inr ⟨s ++ " does not match regexp",
          fun e => by simp [hval, regexp_match_validate, hrj]⟩
      | some mm => exact Or.inr ⟨mm, fun e => by simp [hval, regexp_match_validate, hrj]⟩
    · by_cases hrs : rs.any (fun p => o.reMatch p s) = true
      · exact Or.inl (fun e => by simp [hval, regexp_match_validate, hrj, hrs])
      · cases m with
        | none => exact Or.inr ⟨s ++ " does not match regexp",
            fun e => by simp [hval, regexp_match_validate, hrj, hrs]⟩
        | some mm => exact Or.inr ⟨mm, fun e => by simp [hval, regexp_match_validate, hrj, hrs]⟩
  | int n => exact Or.inr ⟨"Value should be text", fun e => by simp [hval, regexp_match_validate]⟩
  | float n => exact Or.inr ⟨"Value should be text", fun e => by simp [hval, regexp_match_validate]⟩
  | bool b => exact Or.inr ⟨"Value should be text", fun e => by simp [hval, regexp_match_validate]⟩
  | list xs => exact Or.inr ⟨"Value should be text", fun e => by simp [hval, regexp_match_validate]⟩
  | dict es => exact Or.inr ⟨"Value should be text", fun e => by simp [hval, regexp_match_validate]⟩

theorem semOK_regexp_match (o : PyOracle) (m : Option String) (rs rj : List String) :
    SemOK (toSem o (.regexp_match m rs rj)) := by
  apply semOK_of_shape
  intro d
  rcases regexp_match_shape o m rs rj (toSem o (.regexp_match m rs rj)).val
    (fun d e => by simp [toSem, validate]) d with h | h
  · exact Or.inl ⟨true, h⟩
  · exact Or.inr (Or.inl h)

theorem semOK_interval (o : PyOracle) (m : Option String) (rs rj : List String) :
    SemOK (toSem o (.interval m rs rj)) := by
  apply semOK_of_shape
  intro d
  rcases regexp_match_shape o m rs rj (toSem o (.interval m rs rj)).val
    (fun d e => by simp [toSem, validate]) d with h | h
  · exact Or.inl ⟨true, h⟩
  · exact Or.inr (Or.inl h)

theorem semOK_url (o : PyOracle) (m : Option String) (protocols : List String) :
    SemOK (toSem o (.url m protocols)) := by
  apply semOK_of_shape
  intro d
  cases d with
  | str s =>
    by_cases hm : o.reMatch ("(" ++ String.intercalate "|" protocols ++
      "):\\/\\/(\\w+:\x7b0,1\x7d\\w*@)?(\\S+)(:[0-9]+)?(\\/|\\/([\\w#!:.?+=&%@!\\-\\/]))?") s = true
    · exact Or.inl ⟨true, fun e => by simp [toSem, validate, url_validate, hm]⟩
    · exact Or.inr (Or.inl ⟨"value " ++ s ++ " is not a valid url",
        fun e => by simp [toSem, validate, url_validate, hm]⟩)
  | int n => exact Or.inr (Or.inl ⟨"expecting text", fun e => by simp [toSem, validate, url_validate]⟩)
  | float n => exact Or.inr (Or.inl ⟨"expecting text", fun e => by simp [toSem, validate, url_validate]⟩)
  | bool b => exact Or.inr (Or.inl ⟨"expecting text", fun e => by simp [toSem, validate, url_validate]⟩)
  | list xs => exact Or.inr (Or.inl ⟨"expecting text", fun e => by simp [toSem, validate, url_validate]⟩)
  | dict es => exact Or.inr (Or.inl ⟨"expecting text", fun e => by simp [toSem, validate, url_validate]⟩)

theorem semOK_file (o : PyOracle) (m : Option String) : SemOK (toSem o (.file m)) := by
  apply semOK_of_shape
  intro d
  cases d with
  | str s =>
    by_cases hf : o.isfile (o.expanduser s) = true
    · exact Or.inl ⟨true, fun e => by simp [toSem, validate, file_validate, hf]⟩
    · exact Or.inr (Or.inl ⟨"File " ++ s ++ " does not exist",
        fun e => by simp [toSem, validate, file_validate, hf]⟩)
  | int n => exact Or.inr (Or.inr ⟨fun e => by simp [toSem, validate, file_validate], by simp [toSem, Rule.validateable, PyVal.isStr]⟩)
  | float n => exact Or.inr (Or.inr ⟨fun e => by simp [toSem, validate, file_validate], by simp [toSem, Rule.validateable, PyVal.isStr]⟩)
  | bool b => exact Or.inr (Or.inr ⟨fun e => by simp [toSem, validate, file_validate], by simp [toSem, Rule.validateable, PyVal.isStr]⟩)
  | list xs => exact Or.inr (Or.inr ⟨fun e => by simp [toSem, validate, file_validate], by simp [toSem, Rule.validateable, PyVal.isStr]⟩)
  | dict es => exact Or.inr (Or.inr ⟨fun e => by simp [toSem, validate, file_validate], by simp [toSem, Rule.validateable, PyVal.isStr]⟩)

theorem semOK_quality (o : PyOracle) (m : Option String) : SemOK (toSem o (.quality m)) := by
  apply semOK_of_shape
  intro d
  cases d with
  | str s =>
    cases hq : o.qualityParse s with
    | none => exact Or.inl ⟨true, fun e => by simp [toSem, validate, quality_validate, hq]⟩
    | some msg => exact Or.inr (Or.inl ⟨msg, fun e => by simp [toSem, validate, quality_validate, hq]⟩)
  | int n => exact Or.inr (Or.inr ⟨fun e => by simp [toSem, validate, quality_validate], by simp [toSem, Rule.validateable, PyVal.isStr]⟩)
  | float n => exact Or.inr (Or.inr ⟨fun e => by simp [toSem, validate, quality_validate], by simp [toSem, Rule.validateable, PyVal.isStr]⟩)
  | bool b => exact Or.inr (Or.inr ⟨fun e => by simp [toSem, validate, quality_validate], by simp [toSem, Rule.validateable, PyVal.isStr]⟩)
  | list xs => exact Or.inr (Or.inr ⟨fun e => by simp [toSem, validate, quality_validate], by simp [toSem, Rule.validateable, PyVal.isStr]⟩)
  | dict es => exact Or.inr (Or.inr ⟨fun e => by simp [toSem, validate, quality_validate], by simp [toSem, Rule.validateable, PyVal.isStr]⟩)

theorem semOK_quality_requirements (o : PyOracle) (m : Option String) :
    SemOK (toSem o (.quality_requirements m)) := by
  apply semOK_of_shape
  intro d
  cases d with
  | str s =>
    cases hq : o.qualityReqParse s with
    | none => exact Or.inl ⟨true, fun e => by simp [toSem, validate, quality_requirements_validate, hq]⟩
    | some msg => exact Or.inr (Or.inl ⟨"`" ++ s ++ "` is not a valid quality requirement: " ++ msg,
        fun e => by simp [toSem, validate, quality_requirements_validate, hq]⟩)
  | int n => exact Or.inr (Or.inr ⟨fun e => by simp [toSem, validate, quality_requirements_validate], by simp [toSem, Rule.validateable, PyVal.isStr]⟩)
  | float n => exact Or.inr (Or.inr ⟨fun e => by simp [toSem, validate, quality_requirements_validate], by simp [toSem, Rule.validateable, PyVal.isStr]⟩)
  | bool b => exact Or.inr (Or.inr ⟨fun e => by simp [toSem, validate, quality_requirements_validate], by simp [toSem, Rule.validateable, PyVal.isStr]⟩)
  | list xs => exact Or.inr (Or.inr ⟨fun e => by simp [toSem, validate, quality_requirements_validate], by simp [toSem, Rule.validateable, PyVal.isStr]⟩)
  | dict es => exact Or.inr (Or.inr ⟨fun e => by simp [toSem, validate, quality_requirements_validate], by simp [toSem, Rule.validateable, PyVal.isStr]⟩)

theorem semOK_path (o : PyOracle) (m : Option String) (ar am : Bool) :
    SemOK (toSem o (.path m ar am)) := by
  apply semOK_of_shape
  intro d
  cases har : ar with
  | true =>
    cases d with
    | str s =>
      have hval : ∀ e, (toSem o (Rule.path m true am)).val (.str s) e =
          some (path_check o am (match (match o.jinjaSearchStart s with
            | some st => some st
            | none => o.percentSearchStart s) with
            | some st => o.dirname (s.take st)
            | none => s) e) := fun e => by
        simp [toSem, validate, path_validate]
      by_cases hc : (!am && !(o.isdir (o.expanduser (match (match o.jinjaSearchStart s with
            | some st => some st
            | none => o.percentSearchStart s) with
            | some st => o.dirname (s.take st)
            | none => s)))) = true
      · refine Or.inr (Or.inl ⟨"Path " ++ (match (match o.jinjaSearchStart s with
            | some st => some st
            | none => o.percentSearchStart s) with
            | some st => o.dirname (s.take st)
            | none => s) ++ " does not exist", fun e => ?_⟩)
        rw [hval e]
        simp [path_check, hc]
      · refine Or.inl ⟨true, fun e => ?_⟩
        rw [hval e]
        simp [path_check, hc]
    | int n => exact Or.inr (Or.inr ⟨fun e => by simp [toSem, validate, path_validate], by simp [toSem, Rule.validateable, PyVal.isStr]⟩)
    | float n => exact Or.inr (Or.inr ⟨fun e => by simp [toSem, validate, path_validate], by simp [toSem, Rule.validateable, PyVal.isStr]⟩)
    | bool b => exact Or.inr (Or.inr ⟨fun e => by simp [toSem, validate, path_validate], by simp [toSem, Rule.validateable, PyVal.isStr]⟩)
    | list xs => exact Or.inr (Or.inr ⟨fun e => by simp [toSem, validate, path_validate], by simp [toSem, Rule.validateable, PyVal.isStr]⟩)
    | dict es => exact Or.inr (Or.inr ⟨fun e => by simp [toSem, validate, path_validate], by simp [toSem, Rule.validateable, PyVal.isStr]⟩)
  | false =>
    cases ham : am with
    | true => exact Or.inl ⟨true, fun e => by simp [toSem, validate, path_validate]⟩
    | false =>
      cases d with
      | str s =>
        by_cases hd : o.isdir (o.expanduser s) = true
        · exact Or.inl ⟨true, fun e => by simp [toSem, validate, path_validate, path_check, hd]⟩
        · exact Or.inr (Or.inl ⟨"Path " ++ s ++ " does not exist",
            fun e => by simp [toSem, validate, path_validate, path_check, hd]⟩)
      | int n => exact Or.inr (Or.inr ⟨fun e => by simp [toSem, validate, path_validate], by simp [toSem, Rule.validateable, PyVal.isStr]⟩)
      | float n => exact Or.inr (Or.inr ⟨fun e => by simp [toSem, validate, path_validate], by simp [toSem, Rule.validateable, PyVal.isStr]⟩)
      | bool b => exact Or.inr (Or.inr ⟨fun e => by simp [toSem, validate, path_validate], by simp [toSem, Rule.validateable, PyVal.isStr]⟩)
      | list xs => exact Or.inr (Or.inr ⟨fun e => by simp [toSem, validate, path_validate], by simp [toSem, Rule.validateable, PyVal.isStr]⟩)
      | dict es => exact Or.inr (Or.inr ⟨fun e => by simp [toSem, validate, path_validate], by simp [toSem, Rule.validateable, PyVal.isStr]⟩)

/-! ## Invariants of the shared alternative-selection helper -/

theorem validate_item_loop_spec (item : PyVal) :
    ∀ (sems : List RuleSem), (∀ sem ∈ sems, SemOK sem) →
    ∀ (count : Nat) (e : Errors), count ≤ e.count →
    ∃ b e', validate_item_loop item count sems e = some (b, e') ∧
      e'.path = e.path ∧
      (e'.path_level = e.path_level ∨ e'.path_level = some ((e.path.length : Int) - 1)) ∧
      (∀ s, item = .str s → e'.path_level = e.path_level) ∧
      (b = true → e'.messages = e.messages.take count) ∧
      (b = false → ∃ ex, e'.messages = e.messages ++ ex) := by
  intro sems
  induction sems with
  | nil =>
    intro _ count e hc
    exact ⟨false, e, by simp [validate_item_loop], rfl, Or.inl rfl, fun _ _ => rfl,
      fun h => Bool.noConfusion h, fun _ => ⟨[], by simp⟩⟩
  | cons sem rest ih =>
    intro hok count e hc
    have hsem := hok sem (List.mem_cons_self _ _)
    have hrest : ∀ s ∈ rest, SemOK s := fun s hs => hok s (List.mem_cons_of_mem _ hs)
    by_cases hv : sem.vble item = true
    · cases hval : sem.val item e with
      | none =>
        have ht := hsem.total item e hv
        rw [hval] at ht
        cases ht
      | some p =>
        obtain ⟨b0, e0⟩ := p
        obtain ⟨hpath, hlev, ⟨ex, hmsg⟩, htrue⟩ := hsem.frame item e b0 e0 hval
        cases b0 with
        | true =>
          have hm0 : e0.messages = e.messages := htrue rfl
          refine ⟨true, e0.back_out_errors ((e0.count : Int) - count),
            by simp [validate_item_loop, hv, hval], ?_, ?_, ?_, ?_, ?_⟩
          · rw [Errors.back_out_take]; exact hpath
          · rw [Errors.back_out_take]
            rcases hlev with h | h
            · exact Or.inl h
            · exact Or.inr h
          · intro s hs'
            subst hs'
            rw [Errors.back_out_take]
            exact hsem.strFrame s e true e0 hval
          · intro _
            rw [Errors.back_out_take]
            show e0.messages.take count = e.messages.take count
            rw [hm0]
          · intro h
            cases h
        | false =>
          have hc0 : count ≤ e0.count := by
            have h1 : e0.count = e.count + ex.length := by
              simp [Errors.count, hmsg]
            omega
          obtain ⟨b, e', hrun, hp, hl, hs, htr, hfa⟩ := ih hrest count e0 hc0
          refine ⟨b, e', by simp [validate_item_loop, hv, hval, hrun], ?_, ?_, ?_, ?_, ?_⟩
          · rw [hp, hpath]
          · rcases hl with h | h
            · rcases hlev with h2 | h2
              · exact Or.inl (h.trans h2)
              · exact Or.inr (h.trans h2)
            · exact Or.inr (by rw [h, hpath])
          · intro s hs'
            subst hs'
            exact (hs s rfl).trans (hsem.strFrame s e false e0 hval)
          · intro hb
            rw [htr hb, hmsg, List.take_append_of_le_length hc]
          · intro hb
            obtain ⟨ex2, hex2⟩ := hfa hb
            exact ⟨ex ++ ex2, by rw [hex2, hmsg, List.append_assoc]⟩
    · obtain ⟨b, e', hrun, hp, hl, hs, htr, hfa⟩ := ih hrest count e hc
      exact ⟨b, e', by simp [validate_item_loop, hv, hrun], hp, hl, hs, htr, hfa⟩

theorem validate_item_loop_pure (item : PyVal) :
    ∀ (sems : List RuleSem), (∀ sem ∈ sems, SemOK sem) →
    ∀ count1 count2 e1 e2,
      (validate_item_loop item count1 sems e1).map Prod.fst =
      (validate_item_loop item count2 sems e2).map Prod.fst := by
  intro sems
  induction sems with
  | nil => intro _ c1 c2 e1 e2; simp [validate_item_loop]
  | cons sem rest ih =>
    intro hok c1 c2 e1 e2
    have hsem := hok sem (List.mem_cons_self _ _)
    have hrest : ∀ s ∈ rest, SemOK s := fun s hs => hok s (List.mem_cons_of_mem _ hs)
    by_cases hv : sem.vble item = true
    · have hp := hsem.pure item e1 e2
      cases h1 : sem.val item e1 with
      | none =>
        cases h2 : sem.val item e2 with
        | none => simp [validate_item_loop, hv, h1, h2]
        | some p2 => rw [h1, h2] at hp; simp at hp
      | some p1 =>
        cases h2 : sem.val item e2 with
        | none => rw [h1, h2] at hp; simp at hp
        | some p2 =>
          obtain ⟨b1, e1'⟩ := p1
          obtain ⟨b2, e2'⟩ := p2
          rw [h1, h2] at hp
          simp at hp
          subst hp
          cases b1 with
          | true => simp [validate_item_loop, hv, h1, h2]
          | false =>
            simp only [validate_item_loop, hv, if_true, h1, h2]
            exact ih hrest c1 c2 e1' e2'
    · simp only [validate_item_loop, hv, Bool.false_eq_true, if_false]
      exact ih hrest c1 c2 e1 e2

theorem add_extends {base ep : Errors} (hp : ep.path = base.path)
    (hl : ep.path_level = base.path_level) {ex : List String}
    (hm : ep.messages = base.messages ++ ex) (m : String) :
    (ep.add m).path = base.path ∧ (ep.add m).path_level = base.path_level ∧
      (ep.add m).messages =
        base.messages ++ (ex ++ ["[/" ++ String.intercalate "/" ep.path ++ "] " ++ m]) := by
  refine ⟨hp, hl, ?_⟩
  rw [Errors.add_messages, hm, List.append_assoc]

theorem foldl_add_messages_spec :
    ∀ (sems : List RuleSem) (e : Errors),
    ∃ ex, (sems.foldl (fun acc sem => match sem.message with
        | some m => acc.add m
        | none => acc) e).path = e.path ∧
      (sems.foldl (fun acc sem => match sem.message with
        | some m => acc.add m
        | none => acc) e).path_level = e.path_level ∧
      (sems.foldl (fun acc sem => match sem.message with
        | some m => acc.add m
        | none => acc) e).messages = e.messages ++ ex := by
  intro sems
  induction sems with
  | nil => intro e; exact ⟨[], rfl, rfl, by simp⟩
  | cons sem rest ih =>
    intro e
    cases hm : sem.message with
    | none =>
      obtain ⟨ex, h1, h2, h3⟩ := ih e
      exact ⟨ex, by simp only [List.foldl_cons, hm]; exact h1,
        by simp only [List.foldl_cons, hm]; exact h2,
        by simp only [List.foldl_cons, hm]; exact h3⟩
    | some msg =>
      obtain ⟨ex, h1, h2, h3⟩ := ih (e.add msg)
      refine ⟨("[/" ++ String.intercalate "/" e.path ++ "] " ++ msg) :: ex,
        by simp only [List.foldl_cons, hm]; exact h1.trans (Errors.add_path e msg),
        by simp only [List.foldl_cons, hm]; exact h2.trans (Errors.add_path_level e msg),
        ?_⟩
      simp only [List.foldl_cons, hm]
      rw [h3, Errors.add_messages]
      simp

theorem validate_item_fail_spec (item : PyVal) (sems : List RuleSem)
    (count : Nat) (e : Errors) :
    (validate_item_fail item sems count e).path = e.path ∧
    (validate_item_fail item sems count e).path_level = e.path_level ∧
    ∃ ex, (validate_item_fail item sems count e).messages = e.messages ++ ex ∧
      (e.count = count → ex ≠ []) := by
  unfold validate_item_fail
  by_cases h0 : (e.count == count) = true
  · rw [if_pos h0]
    obtain ⟨ex1, hp1, hl1, hm1⟩ := foldl_add_messages_spec sems e
    by_cases h1 : ((sems.foldl (fun acc sem => match sem.message with
        | some m => acc.add m
        | none => acc) e).count == count) = true
    · rw [if_pos h1]
      obtain ⟨hpA, hlA, hmA⟩ := add_extends hp1 hl1 hm1
        ("must be a `" ++ englishList (sems.map (fun s => s.name)) ++ "` value")
      by_cases hd : item.isDict = true
      · rw [if_pos hd]
        obtain ⟨hpB, hlB, hmB⟩ := add_extends hpA hlA hmA
          ("got a dict instead of " ++ englishList (sems.map (fun s => s.name)))
        exact ⟨hpB, hlB, _, hmB, fun _ => by simp⟩
      · rw [if_neg hd]
        by_cases hl : item.isList = true
        · rw [if_pos hl]
          obtain ⟨hpB, hlB, hmB⟩ := add_extends hpA hlA hmA
            ("got a list instead of " ++ englishList (sems.map (fun s => s.name)))
          exact ⟨hpB, hlB, _, hmB, fun _ => by simp⟩
        · rw [if_neg hl]
          obtain ⟨hpB, hlB, hmB⟩ := add_extends hpA hlA hmA
            ("value '" ++ pyStr item ++ "' is not valid " ++
              englishList (sems.map (fun s => s.name)))
          exact ⟨hpB, hlB, _, hmB, fun _ => by simp⟩
    · rw [if_neg h1]
      refine ⟨hp1, hl1, ex1, hm1, fun hc => ?_⟩
      intro hx
      subst hx
      rw [List.append_nil] at hm1
      apply h1
      simp only [Errors.count] at hc ⊢
      rw [hm1]
      simpa using hc
  · rw [if_neg h0]
    refine ⟨rfl, rfl, [], by simp, fun hc => ?_⟩
    exact absurd hc (by simpa [Errors.count] using h0)

theorem validate_item_spec (item : PyVal) (sems : List RuleSem)
    (hok : ∀ sem ∈ sems, SemOK sem) (e : Errors) :
    ∃ b e', validate_item item sems e = some (b, e') ∧
      e'.path = e.path ∧
      (e'.path_level = e.path_level ∨ e'.path_level = some ((e.path.length : Int) - 1)) ∧
      (∀ s, item = .str s → e'.path_level = e.path_level) ∧
      (b = true → e'.messages = e.messages) ∧
      (b = false → ∃ ex, e'.messages = e.messages ++ ex ∧ ex ≠ []) := by
  obtain ⟨b0, e0, hrun, hp, hl, hs, ht, hf⟩ :=
    validate_item_loop_spec item sems hok e.count e le_rfl
  cases b0 with
  | true =>
    refine ⟨true, e0, ?_, hp, hl, hs, fun _ => ?_, fun h => Bool.noConfusion h⟩
    · unfold validate_item
      rw [hrun]
    · rw [ht rfl, Errors.count_eq_length, List.take_length]
  | false =>
    obtain ⟨hpF, hlF, exF, hmF, hneF⟩ := validate_item_fail_spec item sems e.count e0
    obtain ⟨ex0, hex0⟩ := hf rfl
    refine ⟨false, validate_item_fail item sems e.count e0, ?_,
      hpF.trans hp, ?_, ?_, fun h => Bool.noConfusion h, fun _ => ?_⟩
    · unfold validate_item
      rw [hrun]
    · rw [hlF]
      exact hl
    · intro s hs'
      rw [hlF]
      exact hs s hs'
    · refine ⟨ex0 ++ exF, ?_, ?_⟩
      · rw [hmF, hex0, List.append_assoc]
      · rcases List.eq_nil_or_concat ex0 with h | h
        · subst h
          rw [List.append_nil] at hex0
          have hc : e0.count = e.count := by simp [Errors.count, hex0]
          have hne := hneF hc
          simpa using hne
        · intro hx
          rcases List.append_eq_nil.mp hx with ⟨h1, _⟩
          rcases h with ⟨l, a, rfl⟩
          simp at h1

theorem validate_item_pure (item : PyVal) (sems : List RuleSem)
    (hok : ∀ sem ∈ sems, SemOK sem) (e1 e2 : Errors) :
    (validate_item item sems e1).map Prod.fst =
    (validate_item item sems e2).map Prod.fst := by
  obtain ⟨b1, e1', hrun1, _⟩ := validate_item_loop_spec item sems hok e1.count e1 le_rfl
  obtain ⟨b2, e2', hrun2, _⟩ := validate_item_loop_spec item sems hok e2.count e2 le_rfl
  have h := validate_item_loop_pure item sems hok e1.count e2.count e1 e2
  rw [hrun1, hrun2] at h
  simp at h
  subst h
  unfold validate_item
  rw [hrun1, hrun2]
  cases b1 <;> simp

theorem validate_item_runs_itemB (item : PyVal) (sems : List RuleSem)
    (hok : ∀ sem ∈ sems, SemOK sem) (e : Errors) :
    ∃ e', validate_item item sems e = some (itemB sems item, e') := by
  obtain ⟨b, e', hrun, _⟩ := validate_item_spec item sems hok e
  obtain ⟨bi, ei, hruni, _⟩ := validate_item_spec item sems hok Errors.init
  have hp := validate_item_pure item sems hok e Errors.init
  rw [hrun, hruni] at hp
  simp at hp
  have hbi : itemB sems item = bi := by
    unfold itemB
    rw [hruni]
  rw [hbi, ← hp]
  exact ⟨e', hrun⟩

theorem list_set_last : ∀ (P : List String) (x y : String),
    (P ++ [x]).set P.length y = P ++ [y]
  | [], _, _ => rfl
  | p :: ps, x, y => by
    simp only [List.cons_append, List.length_cons, List.set_cons_succ]
    rw [list_set_last ps x y]

theorem list_erase_last : ∀ (P : List String) (y : String),
    (P ++ [y]).eraseIdx P.length = P
  | [], _ => rfl
  | p :: ps, y => by
    simp only [List.cons_append, List.length_cons, List.eraseIdx_cons_succ]
    rw [list_erase_last ps y]

theorem pySetAt_last (P : List String) (x y : String) :
    pySetAt (P ++ [x]) (P.length : Int) y = some (P ++ [y]) := by
  unfold pySetAt
  have h1 : ¬ ((P.length : Int) < 0) := by omega
  simp only [h1, if_false]
  rw [if_pos ⟨by omega, by simp⟩]
  rw [Int.toNat_natCast, list_set_last]

theorem pyDelAt_last (P : List String) (y : String) :
    pyDelAt (P ++ [y]) (P.length : Int) = some P := by
  unfold pyDelAt
  have h1 : ¬ ((P.length : Int) < 0) := by omega
  simp only [h1, if_false]
  rw [if_pos ⟨by omega, by simp⟩]
  rw [Int.toNat_natCast, list_erase_last]

theorem path_update_at_top (e : Errors) (P : List String) (x lbl : String)
    (hp : e.path = P ++ [x]) (hl : e.path_level = some (P.length : Int)) :
    e.path_update_value lbl = some { e with path := P ++ [lbl] } := by
  simp [Errors.path_update_value, hl, hp, pySetAt_last]

theorem path_remove_at_top (e : Errors) (P : List String) (y : String)
    (hp : e.path = P ++ [y]) (hl : e.path_level = some (P.length : Int)) :
    e.path_remove_level =
      some { e with path := P, path_level := some ((P.length : Int) - 1) } := by
  simp [Errors.path_remove_level, hl, hp, pyDelAt_last]

theorem list_elems_loop_spec (sems : List RuleSem)
    (hok : ∀ sem ∈ sems, SemOK sem) (full : List PyVal) :
    ∀ (items : List PyVal) (e : Errors) (P : List String) (x : String),
      e.path = P ++ [x] → e.path_level = some (P.length : Int) →
      ∃ e', list_elems_loop full sems items e = some e' ∧
        (∃ y, e'.path = P ++ [y]) ∧ e'.path_level = some (P.length : Int) ∧
        ∃ ex, e'.messages = e.messages ++ ex ∧
          (ex = [] ↔ ∀ v ∈ items, itemB sems v = true) := by
  intro items
  induction items with
  | nil =>
    intro e P x hp hl
    exact ⟨e, by simp [list_elems_loop], ⟨x, hp⟩, hl, [], by simp, by simp⟩
  | cons v rest ih =>
    intro e P x hp hl
    have hupd := path_update_at_top e P x ("list:" ++ toString (pyIndex v full)) hp hl
    obtain ⟨b, e2, hrun, hp2, hl2, _, ht2, hf2⟩ := validate_item_spec v sems hok
      { e with path := P ++ ["list:" ++ toString (pyIndex v full)] }
    obtain ⟨e2x, hrunB⟩ := validate_item_runs_itemB v sems hok
      { e with path := P ++ ["list:" ++ toString (pyIndex v full)] }
    rw [hrun] at hrunB
    have hb : b = itemB sems v := by
      have h := hrunB
      simp only [Option.some.injEq, Prod.mk.injEq] at h
      exact h.1
    have hp2' : e2.path = P ++ ["list:" ++ toString (pyIndex v full)] := hp2
    have hl2' : e2.path_level = some (P.length : Int) := by
      rcases hl2 with h | h
      · exact h.trans hl
      · rw [h]
        congr 1
        show (((P ++ ["list:" ++ toString (pyIndex v full)]).length : Int) - 1) = (P.length : Int)
        simp
    have hx1 : ∃ ex1, e2.messages = e.messages ++ ex1 ∧ (ex1 = [] ↔ b = true) := by
      cases b with
      | true => exact ⟨[], by simpa using ht2 rfl, by simp⟩
      | false =>
        obtain ⟨ex1, hx, hne⟩ := hf2 rfl
        exact ⟨ex1, hx, by simp [hne]⟩
    obtain ⟨ex1, hm1, hiff1⟩ := hx1
    obtain ⟨e', hrun', ⟨y, hpy⟩, hly, ex2, hm2, hiff2⟩ := ih e2 P _ hp2' hl2'
    refine ⟨e', ?_, ⟨y, hpy⟩, hly, ex1 ++ ex2, ?_, ?_⟩
    · simp only [list_elems_loop, hupd, hrun, hrun']
    · rw [hm2, hm1, List.append_assoc]
    · rw [List.append_eq_nil, hiff1, hiff2, hb, List.forall_mem_cons]

theorem list_validate_run (sems : List RuleSem) (hok : ∀ s ∈ sems, SemOK s)
    (xs : List PyVal) (e : Errors) :
    ∃ ex, list_validate sems (.list xs) e =
      some (decide (∀ v ∈ xs, itemB sems v = true),
        ⟨e.messages ++ ex, e.path, some ((e.path.length : Int) - 1)⟩) ∧
      (ex = [] ↔ ∀ v ∈ xs, itemB sems v = true) := by
  obtain ⟨e2, hrun2, ⟨y, hp2⟩, hl2, ex, hm2, hiff⟩ :=
    list_elems_loop_spec sems hok xs xs (e.path_add_level) e.path "?" rfl rfl
  have hrem := path_remove_at_top e2 e.path y hp2 hl2
  have hcount1 : (e.path_add_level).count = e.count := rfl
  have hm2' : e2.messages = e.messages ++ ex := hm2
  refine ⟨ex, ?_, hiff⟩
  have hbool : ((e.path_add_level).count == e2.count) =
      decide (∀ v ∈ xs, itemB sems v = true) := by
    rw [Bool.eq_iff_iff]
    simp only [beq_iff_eq, decide_eq_true_eq]
    constructor
    · intro hcnt
      apply hiff.mp
      have : e2.count = e.count + ex.length := by
        simp [Errors.count, hm2']
      have hlen : ex.length = 0 := by
        rw [hcount1] at hcnt
        simp [Errors.count] at hcnt this
        omega
      exact List.length_eq_zero.mp hlen
    · intro hall
      have hx : ex = [] := hiff.mpr hall
      subst hx
      rw [hcount1]
      simp [Errors.count, hm2']
  show list_validate sems (.list xs) e = _
  simp only [list_validate, hrun2, hrem, hm2']
  have hcc : (Errors.mk (e.messages ++ ex) e.path
      (some ((e.path.length : Int) - 1))).count = e2.count := by
    simp [Errors.count, hm2']
  rw [hcc, hbool]

theorem semOK_list_sem (sem : RuleSem) (sems : List RuleSem)
    (hok : ∀ s ∈ sems, SemOK s)
    (hval : ∀ d e, sem.val d e = list_validate sems d e)
    (hvble : ∀ d, sem.vble d = d.isList) : SemOK sem := by
  constructor
  · intro d e _
    cases d with
    | list xs =>
      obtain ⟨ex, hrun, _⟩ := list_validate_run sems hok xs e
      rw [hval, hrun]
      rfl
    | str s => simp [hval, list_validate]
    | int n => simp [hval, list_validate]
    | float n => simp [hval, list_validate]
    | bool b => simp [hval, list_validate]
    | dict es => simp [hval, list_validate]
  · intro d e b e' h
    rw [hval] at h
    cases d with
    | list xs =>
      obtain ⟨ex, hrun, hiff⟩ := list_validate_run sems hok xs e
      rw [hrun] at h
      obtain ⟨hb, he⟩ : _ ∧ _ := by simpa using h
      subst hb
      subst he
      refine ⟨rfl, Or.inr rfl, ⟨ex, rfl⟩, fun hbt => ?_⟩
      have hx : ex = [] := hiff.mpr (by simpa using hbt)
      subst hx
      simp
    | str s =>
      simp only [list_validate] at h
      obtain ⟨hb, he⟩ : _ ∧ _ := by simpa using h
      subst hb; subst he
      exact ⟨rfl, Or.inl rfl, ⟨_, rfl⟩, fun hbt => Bool.noConfusion hbt⟩
    | int n =>
      simp only [list_validate] at h
      obtain ⟨hb, he⟩ : _ ∧ _ := by simpa using h
      subst hb; subst he
      exact ⟨rfl, Or.inl rfl, ⟨_, rfl⟩, fun hbt => Bool.noConfusion hbt⟩
    | float n =>
      simp only [list_validate] at h
      obtain ⟨hb, he⟩ : _ ∧ _ := by simpa using h
      subst hb; subst he
      exact ⟨rfl, Or.inl rfl, ⟨_, rfl⟩, fun hbt => Bool.noConfusion hbt⟩
    | bool bb =>
      simp only [list_validate] at h
      obtain ⟨hb, he⟩ : _ ∧ _ := by simpa using h
      subst hb; subst he
      exact ⟨rfl, Or.inl rfl, ⟨_, rfl⟩, fun hbt => Bool.noConfusion hbt⟩
    | dict es =>
      simp only [list_validate] at h
      obtain ⟨hb, he⟩ : _ ∧ _ := by simpa using h
      subst hb; subst he
      exact ⟨rfl, Or.inl rfl, ⟨_, rfl⟩, fun hbt => Bool.noConfusion hbt⟩
  · intro s e b e' h
    rw [hval] at h
    simp only [list_validate] at h
    obtain ⟨hb, he⟩ : _ ∧ _ := by simpa using h
    subst he
    rfl
  · intro d e1 e2
    cases d with
    | list xs =>
      obtain ⟨ex1, hrun1, _⟩ := list_validate_run sems hok xs e1
      obtain ⟨ex2, hrun2, _⟩ := list_validate_run sems hok xs e2
      rw [hval, hval, hrun1, hrun2]
      rfl
    | str s => simp [hval, list_validate]
    | int n => simp [hval, list_validate]
    | float n => simp [hval, list_validate]
    | bool b => simp [hval, list_validate]
    | dict es => simp [hval, list_validate]

theorem semOK_root_sem (sem : RuleSem) (sems : List RuleSem)
    (hok : ∀ s ∈ sems, SemOK s)
    (hval : ∀ d e, sem.val d e = validate_item d sems e) : SemOK sem := by
  constructor
  · intro d e _
    obtain ⟨b, e', hrun, _⟩ := validate_item_spec d sems hok e
    rw [hval, hrun]
    rfl
  · intro d e b e' h
    rw [hval] at h
    obtain ⟨b0, e0, hrun, hp, hl, hs, ht, hf⟩ := validate_item_spec d sems hok e
    rw [hrun] at h
    obtain ⟨hb, he⟩ : _ ∧ _ := by simpa using h
    subst hb
    subst he
    refine ⟨hp, hl, ?_, ht⟩
    cases b0 with
    | true => exact ⟨[], by simpa using ht rfl⟩
    | false =>
      obtain ⟨ex, hex, _⟩ := hf rfl
      exact ⟨ex, hex⟩
  · intro s e b e' h
    rw [hval] at h
    obtain ⟨b0, e0, hrun, hp, hl, hs, ht, hf⟩ := validate_item_spec (.str s) sems hok e
    rw [hrun] at h
    obtain ⟨hb, he⟩ : _ ∧ _ := by simpa using h
    subst he
    exact hs s rfl
  · intro d e1 e2
    rw [hval, hval]
    exact validate_item_pure d sems hok e1 e2

/-- The boolean a rule's `validate` returns does not depend on the collector,
so it equals its `semB`. -/
theorem semB_eq (sem : RuleSem) (hsem : SemOK sem) (d : PyVal) (e : Errors)
    (b : Bool) (e' : Errors) (h : sem.val d e = some (b, e')) : semB sem d = b := by
  unfold semB
  have hp := hsem.pure d Errors.init e
  rw [h] at hp
  cases hi : sem.val d Errors.init with
  | none => rw [hi] at hp; simp at hp
  | some p =>
    obtain ⟨bi, ei⟩ := p
    rw [hi] at hp
    simp at hp
    exact hp

theorem key_validators_loop_spec (key : String) :
    ∀ (kvs : List (RuleSem × RuleSem)), (∀ p ∈ kvs, SemOK p.1) →
    ∀ e, ∃ e1, key_validators_loop key kvs e =
        some ((kvs.find? (fun kv => kv.1.vble (.str key) && semB kv.1 (.str key))).map Prod.snd, e1) ∧
      e1.path = e.path ∧ e1.path_level = e.path_level ∧
      ∃ ex, e1.messages = e.messages ++ ex := by
  intro kvs
  induction kvs with
  | nil =>
    intro _ e
    exact ⟨e, by simp [key_validators_loop], rfl, rfl, [], by simp⟩
  | cons p rest ih =>
    intro hok e
    obtain ⟨kv, vv⟩ := p
    have hkv : SemOK kv := hok (kv, vv) (List.mem_cons_self _ _)
    have hrest : ∀ p ∈ rest, SemOK p.1 := fun p hp => hok p (List.mem_cons_of_mem _ hp)
    by_cases hv : kv.vble (.str key) = true
    · cases hval : kv.val (.str key) e with
      | none =>
        have ht := hkv.total (.str key) e hv
        rw [hval] at ht
        cases ht
      | some q =>
        obtain ⟨b, e0⟩ := q
        have hsb : semB kv (.str key) = b := semB_eq kv hkv (.str key) e b e0 hval
        obtain ⟨hp0, hl0, ⟨ex0, hm0⟩, ht0⟩ := hkv.frame (.str key) e b e0 hval
        have hl0' : e0.path_level = e.path_level := hkv.strFrame key e b e0 hval
        cases b with
        | true =>
          have hfind : (List.find? (fun q : RuleSem × RuleSem =>
              q.1.vble (.str key) && semB q.1 (.str key)) ((kv, vv) :: rest)) = some (kv, vv) := by
            simp [List.find?_cons, hv, hsb]
          refine ⟨e0, ?_, hp0, hl0', ex0, hm0⟩
          rw [hfind]
          simp only [key_validators_loop, hv, if_true, hval, Option.map_some']
        | false =>
          have hfind : (List.find? (fun q : RuleSem × RuleSem =>
              q.1.vble (.str key) && semB q.1 (.str key)) ((kv, vv) :: rest)) =
              List.find? (fun q : RuleSem × RuleSem =>
                q.1.vble (.str key) && semB q.1 (.str key)) rest := by
            simp [List.find?_cons, hv, hsb]
          obtain ⟨e1, hrun1, hp1, hl1, ex1, hm1⟩ := ih hrest e0
          refine ⟨e1, ?_, hp1.trans hp0, hl1.trans hl0', ex0 ++ ex1, ?_⟩
          · rw [hfind]
            simp only [key_validators_loop, hv, if_true, hval]
            exact hrun1
          · rw [hm1, hm0, List.append_assoc]
    · have hvf : kv.vble (.str key) = false := by simpa using hv
      have hfind : (List.find? (fun q : RuleSem × RuleSem =>
          q.1.vble (.str key) && semB q.1 (.str key)) ((kv, vv) :: rest)) =
          List.find? (fun q : RuleSem × RuleSem =>
            q.1.vble (.str key) && semB q.1 (.str key)) rest := by
        simp [List.find?_cons, hvf]
      obtain ⟨e1, hrun1, hp1, hl1, ex1, hm1⟩ := ih hrest e
      refine ⟨e1, ?_, hp1, hl1, ex1, hm1⟩
      rw [hfind]
      simp only [key_validators_loop, hvf, Bool.false_eq_true, if_false]
      exact hrun1

theorem lookupStr_mem {α : Type} (k : String) :
    ∀ (l : List (String × α)) (v : α), lookupStr k l = some v → ∃ k', (k', v) ∈ l := by
  intro l
  induction l with
  | nil => intro v h; cases h
  | cons p rest ih =>
    intro v h
    obtain ⟨k', v'⟩ := p
    unfold lookupStr at h
    by_cases hk : (k' == k) = true
    · rw [if_pos hk] at h
      obtain rfl : v' = v := by simpa using h
      exact ⟨k', List.mem_cons_self _ _⟩
    · rw [if_neg hk] at h
      obtain ⟨k'', hm⟩ := ih v h
      exact ⟨k'', List.mem_cons_of_mem _ hm⟩

theorem dict_finish_key_spec (ds : DictSem) (key : String) (value : PyVal)
    (rules : List RuleSem) (hok : ∀ s ∈ rules, SemOK s) (e : Errors) :
    ∃ e', dict_finish_key ds key value rules e = some e' ∧
      e'.path = e.path ∧
      (e'.path_level = e.path_level ∨ e'.path_level = some ((e.path.length : Int) - 1)) ∧
      ∃ ex, e'.messages = e.messages ++ ex ∧
        (ex = [] ↔ (rules.isEmpty = false ∧ itemB rules value = true)) := by
  by_cases hr : rules.isEmpty = true
  · refine ⟨e.add ("key '" ++ key ++ "' is not recognized" ++
      (if ds.valid.isEmpty then ""
       else ", valid keys: " ++
         String.intercalate ", " (stringSort (ds.valid.map (fun kv => kv.1))))),
      by simp [dict_finish_key, hr], Errors.add_path _ _,
      Or.inl (Errors.add_path_level _ _), _, Errors.add_messages _ _, ?_⟩
    simp [hr]
  · have hr' : rules.isEmpty = false := by simpa using hr
    obtain ⟨b, e2, hrun, hp2, hl2, _, ht2, hf2⟩ := validate_item_spec value rules hok e
    obtain ⟨e2x, hrunB⟩ := validate_item_runs_itemB value rules hok e
    rw [hrun] at hrunB
    have hb : b = itemB rules value := by
      have h := hrunB
      simp only [Option.some.injEq, Prod.mk.injEq] at h
      exact h.1
    refine ⟨e2, ?_, hp2, hl2, ?_⟩
    · simp only [dict_finish_key, hr', Bool.false_eq_true, if_false, hrun]
    · cases b with
      | true =>
        refine ⟨[], by simpa using ht2 rfl, ?_⟩
        simp [hr', ← hb]
      | false =>
        obtain ⟨ex, hex, hne⟩ := hf2 rfl
        refine ⟨ex, hex, ?_⟩
        simp [hne, ← hb]

theorem dict_process_key_spec (ds : DictSem) (hok : DictSemOK ds)
    (key : String) (value : PyVal) (e : Errors) :
    ∃ e', dict_process_key ds key value e = some e' ∧
      e'.path = e.path ∧
      (e'.path_level = e.path_level ∨ e'.path_level = some ((e.path.length : Int) - 1)) ∧
      ∃ ex, e'.messages = e.messages ++ ex ∧
        (ex = [] ↔ dictKeyFails ds key value = false) := by
  obtain ⟨hany, hkvs, hvalid⟩ := hok
  cases hrej : lookupStr key ds.reject with
  | some msg? =>
    have hfails : dictKeyFails ds key value = true := by
      simp only [dictKeyFails, hrej]
    cases msg? with
    | some m =>
      refine ⟨e.add (templateSubstituteKey m key), by simp [dict_process_key, hrej],
        Errors.add_path _ _, Or.inl (Errors.add_path_level _ _), _,
        Errors.add_messages _ _, by simp [hfails]⟩
    | none =>
      refine ⟨e.add ("key '" ++ key ++ "' is forbidden here"),
        by simp [dict_process_key, hrej],
        Errors.add_path _ _, Or.inl (Errors.add_path_level _ _), _,
        Errors.add_messages _ _, by simp [hfails]⟩
  | none =>
    cases hvl : lookupStr key ds.valid with
    | some rs =>
      have hokrs : ∀ s ∈ rs, SemOK s := by
        obtain ⟨k', hm⟩ := lookupStr_mem key ds.valid rs hvl
        exact fun s hs => hvalid (k', rs) hm s hs
      obtain ⟨e', hrun, hp, hl, ex, hex, hiff⟩ :=
        dict_finish_key_spec ds key value rs hokrs e
      refine ⟨e', ?_, hp, hl, ex, hex, ?_⟩
      · simp only [dict_process_key, hrej, hvl]
        exact hrun
      · rw [hiff]
        simp only [dictKeyFails, hrej, hvl]
        by_cases hre : rs.isEmpty = true
        · simp [hre]
        · have hre' : rs.isEmpty = false := by simpa using hre
          simp [hre']
    | none =>
      obtain ⟨e1, hkrun, hp1, hl1, ex1, hm1⟩ :=
        key_validators_loop_spec key ds.key_validators (fun p hp => (hkvs p hp).1) e
      cases hfind : ds.key_validators.find?
          (fun kv => kv.1.vble (.str key) && semB kv.1 (.str key)) with
      | some kvp =>
        have hvv : SemOK kvp.2 := (hkvs kvp (List.mem_of_find?_eq_some hfind)).2
        have hrestore : e1.back_out_errors ((e1.count : Int) - e.count) = e :=
          Errors.back_out_restore hm1 hp1 hl1
        obtain ⟨e', hrun, hp, hl, ex, hex, hiff⟩ := dict_finish_key_spec ds key value [kvp.2]
          (by intro s hs; rw [List.mem_singleton] at hs; subst hs; exact hvv) e
        refine ⟨e', ?_, hp, hl, ex, hex, ?_⟩
        · simp only [dict_process_key, hrej, hvl, hkrun, hfind, Option.map_some',
            List.isEmpty_cons, Bool.false_eq_true, if_false]
          rw [hrestore]
          exact hrun
        · rw [hiff]
          simp only [dictKeyFails, hrej, hvl, hfind]
          simp
      | none =>
        by_cases hae : ds.any_key.isEmpty = true
        · obtain ⟨e', hrun, hp, hl, ex2, hex2, hiff2⟩ :=
            dict_finish_key_spec ds key value ds.any_key hany e1
          have hfails : dictKeyFails ds key value = true := by
            simp only [dictKeyFails, hrej, hvl, hfind]
            simp [hae]
          have hex2ne : ex2 ≠ [] := by
            intro hx
            have h2 := hiff2.mp hx
            rw [hae] at h2
            exact Bool.noConfusion h2.1
          refine ⟨e', ?_, hp.trans hp1, ?_, ex1 ++ ex2, ?_, ?_⟩
          · simp only [dict_process_key, hrej, hvl, hkrun, hfind, Option.map_none',
              hae, if_true]
            exact hrun
          · rcases hl with h | h
            · exact Or.inl (h.trans hl1)
            · exact Or.inr (by rw [h, hp1])
          · rw [hex2, hm1, List.append_assoc]
          · rw [hfails]
            simp only [Bool.true_eq_false, iff_false]
            intro hx
            exact hex2ne (List.append_eq_nil.mp hx).2
        · have hae' : ds.any_key.isEmpty = false := by simpa using hae
          have hrestore : e1.back_out_errors ((e1.count : Int) - e.count) = e :=
            Errors.back_out_restore hm1 hp1 hl1
          obtain ⟨e', hrun, hp, hl, ex, hex, hiff⟩ :=
            dict_finish_key_spec ds key value ds.any_key hany e
          refine ⟨e', ?_, hp, hl, ex, hex, ?_⟩
          · simp only [dict_process_key, hrej, hvl, hkrun, hfind, Option.map_none',
              hae', Bool.false_eq_true, if_false]
            rw [hrestore]
            exact hrun
          · rw [hiff]
            simp only [dictKeyFails, hrej, hvl, hfind]
            simp [hae']

theorem dict_entries_loop_spec (ds : DictSem) (hok : DictSemOK ds) :
    ∀ (entries : List (String × PyVal)) (e : Errors) (P : List String) (x : String),
      e.path = P ++ [x] → e.path_level = some (P.length : Int) →
      ∃ e', dict_entries_loop ds entries e = some e' ∧
        (∃ y, e'.path = P ++ [y]) ∧ e'.path_level = some (P.length : Int) ∧
        ∃ ex, e'.messages = e.messages ++ ex ∧
          (ex = [] ↔ ∀ kv ∈ entries, dictKeyFails ds kv.1 kv.2 = false) := by
  intro entries
  induction entries with
  | nil =>
    intro e P x hp hl
    exact ⟨e, by simp [dict_entries_loop], ⟨x, hp⟩, hl, [], by simp, by simp⟩
  | cons kv rest ih =>
    intro e P x hp hl
    obtain ⟨k, v⟩ := kv
    have hupd := path_update_at_top e P x ("dict:" ++ k) hp hl
    obtain ⟨e2, hrun, hp2, hl2, ex1, hm1, hiff1⟩ := dict_process_key_spec ds hok k v
      { e with path := P ++ ["dict:" ++ k] }
    have hp2' : e2.path = P ++ ["dict:" ++ k] := hp2
    have hl2' : e2.path_level = some (P.length : Int) := by
      rcases hl2 with h | h
      · exact h.trans hl
      · rw [h]
        congr 1
        show (((P ++ ["dict:" ++ k]).length : Int) - 1) = (P.length : Int)
        simp
    obtain ⟨e', hrun', ⟨y, hpy⟩, hly, ex2, hm2, hiff2⟩ := ih e2 P _ hp2' hl2'
    refine ⟨e', ?_, ⟨y, hpy⟩, hly, ex1 ++ ex2, ?_, ?_⟩
    · simp only [dict_entries_loop, hupd, hrun, hrun']
    · rw [hm2, hm1, List.append_assoc]
    · rw [List.append_eq_nil, hiff1, hiff2, List.forall_mem_cons]

theorem required_fold_spec :
    ∀ (ks : List String) (entries : List (String × PyVal)) (e : Errors),
      (ks.foldl (fun acc k => if entries.any (fun kv => kv.1 == k) then acc
        else acc.add ("key '" ++ k ++ "' required")) e).path = e.path ∧
      (ks.foldl (fun acc k => if entries.any (fun kv => kv.1 == k) then acc
        else acc.add ("key '" ++ k ++ "' required")) e).path_level = e.path_level ∧
      (ks.foldl (fun acc k => if entries.any (fun kv => kv.1 == k) then acc
        else acc.add ("key '" ++ k ++ "' required")) e).messages = e.messages ++
        (ks.filter (fun k => !(entries.any (fun kv => kv.1 == k)))).map
          (fun k => "[/" ++ String.intercalate "/" e.path ++ "] " ++
            ("key '" ++ k ++ "' required")) := by
  intro ks
  induction ks with
  | nil => intro entries e; exact ⟨rfl, rfl, by simp⟩
  | cons k rest ih =>
    intro entries e
    by_cases hpres : entries.any (fun kv => kv.1 == k) = true
    · obtain ⟨h1, h2, h3⟩ := ih entries e
      refine ⟨?_, ?_, ?_⟩
      · simp only [List.foldl_cons, hpres, if_true]
        exact h1
      · simp only [List.foldl_cons, hpres, if_true]
        exact h2
      · simp only [List.foldl_cons, hpres, if_true, List.filter_cons, hpres,
          Bool.not_true, Bool.false_eq_true, if_false]
        exact h3
    · have hpres' : entries.any (fun kv => kv.1 == k) = false := Bool.eq_false_iff.mpr hpres
      obtain ⟨h1, h2, h3⟩ := ih entries (e.add ("key '" ++ k ++ "' required"))
      refine ⟨?_, ?_, ?_⟩
      · simp only [List.foldl_cons, hpres', Bool.false_eq_true, if_false]
        exact h1.trans (Errors.add_path _ _)
      · simp only [List.foldl_cons, hpres', Bool.false_eq_true, if_false]
        exact h2.trans (Errors.add_path_level _ _)
      · simp only [List.foldl_cons, hpres', Bool.false_eq_true, if_false,
          List.filter_cons, Bool.not_false, if_true]
        rw [h3, Errors.add_messages]
        simp [Errors.add_path]

theorem dict_validate_run (ds : DictSem) (hok : DictSemOK ds)
    (entries : List (String × PyVal)) (e : Errors) :
    ∃ ex, dict_validate ds (.dict entries) e =
      some (dictB ds entries,
        ⟨e.messages ++ ex ++ (missingRequired ds entries).map
          (fun k => "[/" ++ String.intercalate "/" e.path ++ "] " ++
            ("key '" ++ k ++ "' required")),
         e.path, some ((e.path.length : Int) - 1)⟩) ∧
      (ex = [] ↔ ∀ kv ∈ entries, dictKeyFails ds kv.1 kv.2 = false) := by
  obtain ⟨e2, hrun2, ⟨y, hp2⟩, hl2, ex, hm2, hiff⟩ :=
    dict_entries_loop_spec ds hok entries (e.path_add_level) e.path "?" rfl rfl
  have hrem := path_remove_at_top e2 e.path y hp2 hl2
  have hm2' : e2.messages = e.messages ++ ex := hm2
  obtain ⟨hfp, hfl, hfm⟩ := required_fold_spec ds.required_keys entries
    { e2 with path := e.path, path_level := some ((e.path.length : Int) - 1) }
  refine ⟨ex, ?_, hiff⟩
  have hmiss : (ds.required_keys.filter
      (fun k => !(entries.any (fun kv => kv.1 == k)))) = missingRequired ds entries := rfl
  have hfinal : (ds.required_keys.foldl (fun acc k =>
      if entries.any (fun kv => kv.1 == k) then acc
      else acc.add ("key '" ++ k ++ "' required"))
      { e2 with path := e.path, path_level := some ((e.path.length : Int) - 1) }) =
      Errors.mk (e.messages ++ ex ++ (missingRequired ds entries).map
        (fun k => "[/" ++ String.intercalate "/" e.path ++ "] " ++
          ("key '" ++ k ++ "' required"))) e.path (some ((e.path.length : Int) - 1)) := by
    apply Errors.eq_of_fields
    · rw [hfm]
      show e2.messages ++ _ = _
      rw [hm2', hmiss, List.append_assoc]
    · exact hfp
    · exact hfl
  have hbool : (e.count == (Errors.mk (e.messages ++ ex ++ (missingRequired ds entries).map
      (fun k => "[/" ++ String.intercalate "/" e.path ++ "] " ++
        ("key '" ++ k ++ "' required"))) e.path (some ((e.path.length : Int) - 1))).count) =
      dictB ds entries := by
    rw [Bool.eq_iff_iff]
    simp only [beq_iff_eq, dictB, Bool.and_eq_true, Bool.not_eq_true',
      List.any_eq_false, List.all_eq_true, Errors.count]
    constructor
    · intro hcnt
      have hlen : ex.length + ((missingRequired ds entries).map
          (fun k => "[/" ++ String.intercalate "/" e.path ++ "] " ++
            ("key '" ++ k ++ "' required"))).length = 0 := by
        simp only [List.length_append] at hcnt
        omega
      have hx : ex = [] := List.length_eq_zero.mp (by omega)
      have hmz : (missingRequired ds entries).length = 0 := by
        simp only [List.length_map] at hlen
        omega
      constructor
      · intro kv hkv
        have := hiff.mp hx kv hkv
        simpa using this
      · intro k hk
        by_contra hnk
        have hkmem : k ∈ missingRequired ds entries := by
          unfold missingRequired
          rw [List.mem_filter]
          exact ⟨hk, by simp [Bool.eq_false_iff.mpr hnk]⟩
        rw [List.length_eq_zero.mp hmz] at hkmem
        cases hkmem
    · rintro ⟨hnofail, hallreq⟩
      have hx : ex = [] := by
        apply hiff.mpr
        intro kv hkv
        simpa using hnofail kv hkv
      have hmz : missingRequired ds entries = [] := by
        unfold missingRequired
        rw [List.filter_eq_nil_iff]
        intro k hk
        simp [hallreq k hk]
      rw [hx, hmz]
      simp
  show dict_validate ds (.dict entries) e = _
  simp only [dict_validate, hrun2, hrem, hfinal, hbool]

theorem semOK_dict_sem (sem : RuleSem) (ds : DictSem) (hok : DictSemOK ds)
    (hval : ∀ d e, sem.val d e = dict_validate ds d e) : SemOK sem := by
  constructor
  · intro d e _
    cases d with
    | dict entries =>
      obtain ⟨ex, hrun, _⟩ := dict_validate_run ds hok entries e
      rw [hval, hrun]
      rfl
    | str s => simp [hval, dict_validate]
    | int n => simp [hval, dict_validate]
    | float n => simp [hval, dict_validate]
    | bool b => simp [hval, dict_validate]
    | list xs => simp [hval, dict_validate]
  · intro d e b e' h
    rw [hval] at h
    cases d with
    | dict entries =>
      obtain ⟨ex, hrun, hiff⟩ := dict_validate_run ds hok entries e
      rw [hrun] at h
      obtain ⟨hb, he⟩ : _ ∧ _ := by simpa using h
      subst hb
      subst he
      refine ⟨rfl, Or.inr rfl, ⟨ex ++ (missingRequired ds entries).map
        (fun k => "[/" ++ String.intercalate "/" e.path ++ "] " ++
          ("key '" ++ k ++ "' required")), ?_⟩, fun hbt => ?_⟩
      · rfl
      have hx : ex = [] := by
        apply hiff.mpr
        intro kv hkv
        have hb' := hbt
        simp only [dictB, Bool.and_eq_true, Bool.not_eq_true', List.any_eq_false] at hb'
        exact Bool.eq_false_iff.mpr (hb'.1 kv hkv)
      have hmz : missingRequired ds entries = [] := by
        have hb' := hbt
        simp only [dictB, Bool.and_eq_true, List.all_eq_true] at hb'
        unfold missingRequired
        rw [List.filter_eq_nil_iff]
        intro k hk
        simp [hb'.2 k hk]
      rw [hx, hmz]
      simp
    | str s =>
      simp only [dict_validate] at h
      obtain ⟨hb, he⟩ : _ ∧ _ := by simpa using h
      subst hb; subst he
      exact ⟨rfl, Or.inl rfl, ⟨_, rfl⟩, fun hbt => Bool.noConfusion hbt⟩
    | int n =>
      simp only [dict_validate] at h
      obtain ⟨hb, he⟩ : _ ∧ _ := by simpa using h
      subst hb; subst he
      exact ⟨rfl, Or.inl rfl, ⟨_, rfl⟩, fun hbt => Bool.noConfusion hbt⟩
    | float n =>
      simp only [dict_validate] at h
      obtain ⟨hb, he⟩ : _ ∧ _ := by simpa using h
      subst hb; subst he
      exact ⟨rfl, Or.inl rfl, ⟨_, rfl⟩, fun hbt => Bool.noConfusion hbt⟩
    | bool bb =>
      simp only [dict_validate] at h
      obtain ⟨hb, he⟩ : _ ∧ _ := by simpa using h
      subst hb; subst he
      exact ⟨rfl, Or.inl rfl, ⟨_, rfl⟩, fun hbt => Bool.noConfusion hbt⟩
    | list xs =>
      simp only [dict_validate] at h
      obtain ⟨hb, he⟩ : _ ∧ _ := by simpa using h
      subst hb; subst he
      exact ⟨rfl, Or.inl rfl, ⟨_, rfl⟩, fun hbt => Bool.noConfusion hbt⟩
  · intro s e b e' h
    rw [hval] at h
    simp only [dict_validate] at h
    obtain ⟨hb, he⟩ : _ ∧ _ := by simpa using h
    subst he
    rfl
  · intro d e1 e2
    cases d with
    | dict entries =>
      obtain ⟨ex1, hrun1, _⟩ := dict_validate_run ds hok entries e1
      obtain ⟨ex2, hrun2, _⟩ := dict_validate_run ds hok entries e2
      rw [hval, hval, hrun1, hrun2]
      rfl
    | str s => simp [hval, dict_validate]
    | int n => simp [hval, dict_validate]
    | float n => simp [hval, dict_validate]
    | bool b => simp [hval, dict_validate]
    | list xs => simp [hval, dict_validate]

theorem toSems_eq_map (o : PyOracle) : ∀ rs : List Rule, toSems o rs = rs.map (toSem o) := by
  intro rs
  induction rs with
  | nil => simp [toSems]
  | cons r rest ih => simp [toSems, toSem, ih]

theorem toSemPairs_eq_map (o : PyOracle) : ∀ kvs : List (Rule × Rule),
    toSemPairs o kvs = kvs.map (fun p => (toSem o p.1, toSem o p.2)) := by
  intro kvs
  induction kvs with
  | nil => simp [toSemPairs]
  | cons p rest ih =>
    obtain ⟨a, b⟩ := p
    simp [toSemPairs, toSem, ih]

theorem toSemsAssoc_eq_map (o : PyOracle) : ∀ l : List (String × List Rule),
    toSemsAssoc o l = l.map (fun kv => (kv.1, toSems o kv.2)) := by
  intro l
  induction l with
  | nil => simp [toSemsAssoc]
  | cons p rest ih =>
    obtain ⟨k, rs⟩ := p
    simp [toSemsAssoc, ih]

/-- The invariant package holds for every rule's semantics: `validate` is
total on `validateable` data, restores the path, only appends messages
(restoring them exactly on success), and returns a collector-independent
boolean. -/
theorem validate_ok (o : PyOracle) : ∀ r : Rule, SemOK (toSem o r) := by
  suffices h : ∀ n (r : Rule), sizeOf r = n → SemOK (toSem o r) by
    intro r
    exact h (sizeOf r) r rfl
  intro n
  induction n using Nat.strong_induction_on with
  | _ n ih =>
  intro r hn
  have IH : ∀ r' : Rule, sizeOf r' < sizeOf r → SemOK (toSem o r') :=
    fun r' h => ih (sizeOf r') (by omega) r' rfl
  clear hn
  cases r with
  | root m valid =>
    refine semOK_root_sem _ (toSems o valid) ?_ ?_
    · intro s hs
      rw [toSems_eq_map] at hs
      obtain ⟨r', hr', rfl⟩ := List.mem_map.mp hs
      apply IH
      have h1 := List.sizeOf_lt_of_mem hr'
      have h2 : sizeOf valid < sizeOf (Rule.root m valid) := by
        simp only [Rule.root.sizeOf_spec]
        omega
      omega
    · intro d e
      simp [toSem, validate]
  | choice m valid valid_ic => exact semOK_choice o m valid valid_ic
  | any m => exact semOK_any o m
  | equals m v => exact semOK_equals o m v
  | number m => exact semOK_number o m
  | integer m => exact semOK_integer o m
  | decimal m => exact semOK_decimal o m
  | boolean m => exact semOK_boolean o m
  | text m => exact semOK_text o m
  | regexp m => exact semOK_regexp o m
  | regexp_match m rs rj => exact semOK_regexp_match o m rs rj
  | interval m rs rj => exact semOK_interval o m rs rj
  | file m => exact semOK_file o m
  | path m ar am => exact semOK_path o m ar am
  | url m protocols => exact semOK_url o m protocols
  | quality m => exact semOK_quality o m
  | quality_requirements m => exact semOK_quality_requirements o m
  | list m valid =>
    refine semOK_list_sem _ (toSems o valid) ?_ ?_ ?_
    · intro s hs
      rw [toSems_eq_map] at hs
      obtain ⟨r', hr', rfl⟩ := List.mem_map.mp hs
      apply IH
      have h1 := List.sizeOf_lt_of_mem hr'
      have h2 : sizeOf valid < sizeOf (Rule.list m valid) := by
        simp only [Rule.list.sizeOf_spec]
        omega
      omega
    · intro d e
      simp [toSem, validate]
    · intro d
      rfl
  | dict m reject any_key required_keys key_validators valid =>
    refine semOK_dict_sem _
      ⟨reject, toSems o any_key, required_keys,
        toSemPairs o key_validators, toSemsAssoc o valid⟩ ⟨?_, ?_, ?_⟩ ?_
    · intro s hs
      rw [toSems_eq_map] at hs
      obtain ⟨r', hr', rfl⟩ := List.mem_map.mp hs
      apply IH
      have h1 := List.sizeOf_lt_of_mem hr'
      have h2 : sizeOf any_key <
          sizeOf (Rule.dict m reject any_key required_keys key_validators valid) := by
        simp only [Rule.dict.sizeOf_spec]
        omega
      omega
    · intro p hp
      rw [toSemPairs_eq_map] at hp
      obtain ⟨⟨a, b⟩, hab, rfl⟩ := List.mem_map.mp hp
      have h1 := List.sizeOf_lt_of_mem hab
      have h2 : sizeOf (a, b) ≤ sizeOf key_validators := le_of_lt h1
      have h3 : sizeOf a < sizeOf (a, b) ∧ sizeOf b < sizeOf (a, b) := by
        simp only [Prod.mk.sizeOf_spec]
        omega
      have h4 : sizeOf key_validators <
          sizeOf (Rule.dict m reject any_key required_keys key_validators valid) := by
        simp only [Rule.dict.sizeOf_spec]
        omega
      exact ⟨IH a (by omega), IH b (by omega)⟩
    · intro kv hkv s hs
      rw [toSemsAssoc_eq_map] at hkv
      obtain ⟨⟨k, rs⟩, hmem, rfl⟩ := List.mem_map.mp hkv
      simp only at hs
      rw [toSems_eq_map] at hs
      obtain ⟨r', hr', rfl⟩ := List.mem_map.mp hs
      have h1 := List.sizeOf_lt_of_mem hr'
      have h2 := List.sizeOf_lt_of_mem hmem
      have h3 : sizeOf rs < sizeOf (k, rs) := by
        simp only [Prod.mk.sizeOf_spec]
        omega
      have h4 : sizeOf valid <
          sizeOf (Rule.dict m reject any_key required_keys key_validators valid) := by
        simp only [Rule.dict.sizeOf_spec]
        omega
      exact IH r' (by omega)
    · intro d e
      simp [toSem, validate]

/-! ## The claims -/

/-- C10: `back_out_errors(n)` with `n ≤ 0` leaves the message list unchanged;
with `0 < n ≤ length` it removes exactly the last `n` messages, leaving every
earlier message unchanged and in its original position. -/
theorem claim_C10 (e : Errors) (n : Int) :
    (n ≤ 0 → e.back_out_errors n = e) ∧
    (0 < n → n ≤ (e.count : Int) →
      (e.back_out_errors n).messages = e.messages.take (e.count - n.toNat) ∧
      (e.back_out_errors n).messages.length = e.count - n.toNat ∧
      e.messages = (e.back_out_errors n).messages ++
        e.messages.drop (e.count - n.toNat) ∧
      (e.messages.drop (e.count - n.toNat)).length = n.toNat ∧
      (∀ i, i < e.count - n.toNat →
        (e.back_out_errors n).messages.get? i = e.messages.get? i)) := by
  constructor
  · intro hle
    unfold Errors.back_out_errors
    rw [if_neg (by omega)]
  · intro hpos hle
    rw [Errors.count_eq_length] at hle
    have hrw : (e.back_out_errors n).messages =
        e.messages.take (e.count - n.toNat) := by
      unfold Errors.back_out_errors
      rw [if_pos hpos]
      rfl
    refine ⟨hrw, ?_, ?_, ?_, ?_⟩
    · rw [hrw]
      simp only [List.length_take, Errors.count_eq_length]
      omega
    · rw [hrw, List.take_append_drop]
    · simp only [List.length_drop, Errors.count_eq_length]
      omega
    · intro i hi
      rw [Errors.count_eq_length] at hi
      rw [hrw]
      exact List.get?_take (by simp only [Errors.count_eq_length]; omega)

/-- The execution invariant of balanced path-marker call sequences: execution
never raises, the path length tracks the nesting depth, and the marker points
at the top slot while a level is open (dropping to `none` or `-1` at depth 0). -/
theorem path_ops_invariant :
    ∀ (ops : List PathOp) (d : Nat) (e : Errors),
      wellNestedFrom d ops = true →
      e.path.length = d →
      (if d = 0 then (e.path_level = none ∨ e.path_level = some (-1))
       else e.path_level = some ((d : Int) - 1)) →
      ∃ e', execPathOps ops e = some e' ∧
        e'.messages = e.messages ∧
        e'.path.length = finalDepth d ops ∧
        (if finalDepth d ops = 0 then (e'.path_level = none ∨ e'.path_level = some (-1))
         else e'.path_level = some ((finalDepth d ops : Int) - 1)) := by
  intro ops
  induction ops with
  | nil =>
    intro d e _ hlen hlev
    exact ⟨e, by simp [execPathOps], rfl, by simpa [finalDepth] using hlen,
      by simpa [finalDepth] using hlev⟩
  | cons op rest ih =>
    intro d e hwn hlen hlev
    cases op with
    | add l =>
      simp only [wellNestedFrom] at hwn
      obtain ⟨e', h1, h2, h3, h4⟩ := ih (d + 1) (e.path_add_level l) hwn
        (by simp [Errors.path_add_level, hlen])
        (by simp [Errors.path_add_level, hlen])
      exact ⟨e', by simpa [execPathOps, PathOp.step] using h1,
        h2, by simpa [finalDepth] using h3, by simpa [finalDepth] using h4⟩
    | update l =>
      simp only [wellNestedFrom, Bool.and_eq_true, decide_eq_true_eq] at hwn
      obtain ⟨hd, hwn'⟩ := hwn
      have hlev' : e.path_level = some ((d : Int) - 1) := by
        rw [if_neg (by omega)] at hlev
        exact hlev
      have hneg : ¬ (((d : Int) - 1) < 0) := by omega
      have hupd : e.path_update_value l =
          some { e with path := e.path.set ((d : Int) - 1).toNat l } := by
        unfold Errors.path_update_value
        rw [hlev']
        unfold pySetAt
        simp only [hneg, if_false]
        rw [if_pos ⟨by omega, by rw [hlen]; omega⟩]
        rfl
      obtain ⟨e', h1, h2, h3, h4⟩ := ih d
        { e with path := e.path.set ((d : Int) - 1).toNat l }
        hwn' (by simp [hlen]) (by rw [if_neg (by omega)]; exact hlev')
      refine ⟨e', ?_, h2, by simpa [finalDepth] using h3, by simpa [finalDepth] using h4⟩
      simp only [execPathOps, PathOp.step, hupd]
      exact h1
    | remove =>
      simp only [wellNestedFrom, Bool.and_eq_true, decide_eq_true_eq] at hwn
      obtain ⟨hd, hwn'⟩ := hwn
      have hlev' : e.path_level = some ((d : Int) - 1) := by
        rw [if_neg (by omega)] at hlev
        exact hlev
      have hneg : ¬ (((d : Int) - 1) < 0) := by omega
      have hrem : e.path_remove_level =
          some (Errors.mk e.messages (e.path.eraseIdx ((d : Int) - 1).toNat) (some ((d : Int) - 2))) := by
        unfold Errors.path_remove_level
        rw [hlev']
        unfold pyDelAt
        simp only [hneg, if_false]
        rw [if_pos ⟨by omega, by rw [hlen]; omega⟩]
        simp only [Option.map_some']
        have hv2 : ((d : Int) - 1) - 1 = (d : Int) - 2 := by omega
        rw [hv2]
      have ht : (((d : Int) - 1)).toNat = d - 1 := by omega
      have hlen' : ((Errors.mk e.messages (e.path.eraseIdx ((d : Int) - 1).toNat) (some ((d : Int) - 2))).path).length = d - 1 := by
        show (e.path.eraseIdx ((d : Int) - 1).toNat).length = d - 1
        rw [ht, List.length_eraseIdx, hlen, if_pos (by omega)]
      have hcond : (if d - 1 = 0 then
          ((Errors.mk e.messages (e.path.eraseIdx ((d : Int) - 1).toNat) (some ((d : Int) - 2))).path_level = none ∨
           (Errors.mk e.messages (e.path.eraseIdx ((d : Int) - 1).toNat) (some ((d : Int) - 2))).path_level = some (-1))
        else (Errors.mk e.messages (e.path.eraseIdx ((d : Int) - 1).toNat) (some ((d : Int) - 2))).path_level =
            some (((d - 1 : Nat) : Int) - 1)) := by
        by_cases hd1 : d - 1 = 0
        · rw [if_pos hd1]
          right
          show some ((d : Int) - 2) = some (-1)
          congr 1
          omega
        · rw [if_neg hd1]
          show some ((d : Int) - 2) = some (((d - 1 : Nat) : Int) - 1)
          congr 1
          omega
      obtain ⟨e', h1, h2, h3, h4⟩ := ih (d - 1)
        (Errors.mk e.messages (e.path.eraseIdx ((d : Int) - 1).toNat) (some ((d : Int) - 2)))
        hwn' hlen' hcond
      refine ⟨e', ?_, h2, by simpa [finalDepth] using h3, by simpa [finalDepth] using h4⟩
      simp only [execPathOps, PathOp.step, hrem]
      exact h1

/-- C5: after any balanced sequence of open/update/close calls from a fresh
collector, calling `close()` (`path_remove_level`) with no level left open
raises (either the `no path level` guard or the `IndexError` of deleting from
the empty path at marker `-1`) and never returns; with a level open it
removes the marked top slot and decrements the marker. -/
theorem claim_C5 (ops : List PathOp) (h : wellNestedFrom 0 ops = true) :
    ∃ e, execPathOps ops Errors.init = some e ∧
      (finalDepth 0 ops = 0 → e.path_remove_level = none) ∧
      (0 < finalDepth 0 ops →
        e.path_level = some ((e.path.length : Int) - 1) ∧
        e.path_remove_level = some
          (Errors.mk e.messages e.path.dropLast (some ((e.path.length : Int) - 2)))) := by
  obtain ⟨e, h1, h2, h3, h4⟩ := path_ops_invariant ops 0 Errors.init h rfl
    (by rw [if_pos rfl]; left; rfl)
  refine ⟨e, h1, ?_, ?_⟩
  · intro hfd
    rw [if_pos hfd] at h4
    have hpath : e.path = [] := List.length_eq_zero.mp (by rw [h3, hfd])
    rcases h4 with hh | hh
    · unfold Errors.path_remove_level
      rw [hh]
    · unfold Errors.path_remove_level
      rw [hh]
      unfold pyDelAt
      rw [hpath]
      simp
  · intro hfd
    rw [if_neg (by omega)] at h4
    have hlev : e.path_level = some ((e.path.length : Int) - 1) := by
      rw [h4, h3]
    have hne : e.path ≠ [] := by
      intro hx
      rw [hx] at h3
      simp only [List.length_nil] at h3
      omega
    obtain ⟨P, y, hPy⟩ := (List.eq_nil_or_concat e.path).resolve_left hne
    rw [List.concat_eq_append] at hPy
    have hPlen : P.length = e.path.length - 1 := by
      rw [hPy]
      simp
    have hplpos : 0 < e.path.length := by
      rw [hPy]
      simp
    have hlev' : e.path_level = some ((P.length : Int)) := by
      rw [hlev]
      congr 1
      omega
    have hrem := path_remove_at_top e P y hPy hlev'
    refine ⟨hlev, ?_⟩
    rw [hrem]
    congr 1
    apply Errors.eq_of_fields
    · rfl
    · show P = e.path.dropLast
      rw [hPy, List.dropLast_concat]
    · show some ((P.length : Int) - 1) = some ((e.path.length : Int) - 2)
      congr 1
      omega

/-- C5 witness: one balanced open/close pair leaves no open level, and the
next `close()` raises. -/
theorem claim_C5_witness :
    ∃ e, execPathOps [PathOp.add "a", PathOp.remove] Errors.init = some e ∧
      e.path_remove_level = none := by
  obtain ⟨e, h1, h2, _⟩ := claim_C5 [PathOp.add "a", PathOp.remove] (by decide)
  exact ⟨e, h1, h2 (by decide)⟩

/-- C10 witness: with three recorded messages, `back_out_errors (-1)` and
`back_out_errors 0` change nothing and `back_out_errors 2` keeps exactly the
first message. -/
theorem claim_C10_witness :
    (Errors.mk ["a", "b", "c"] [] none).back_out_errors (-1) =
      Errors.mk ["a", "b", "c"] [] none ∧
    ((Errors.mk ["a", "b", "c"] [] none).back_out_errors 2).messages = ["a"] := by
  constructor
  · exact (claim_C10 (Errors.mk ["a", "b", "c"] [] none) (-1)).1 (by decide)
  · have h := ((claim_C10 (Errors.mk ["a", "b", "c"] [] none) 2).2 (by decide) (by decide)).1
    rw [h]
    decide

/-- C9: with `accept('Foo', ignore_case=True)` the choice rule stores the
lower-cased text in the case-insensitive set; `'foo'` and `'FOO'` validate,
`'Foo '` does not; and on any text the result is exactly: membership in the
case-sensitive set first, else the lower-cased input against the
case-insensitive set. -/
theorem claim_C9 :
    choice_accept [] [] (.str "Foo") true = some ([], ["foo"]) ∧
    validate oracle0 (.choice none [] ["foo"]) (.str "foo") Errors.init =
      some (true, Errors.init) ∧
    validate oracle0 (.choice none [] ["foo"]) (.str "FOO") Errors.init =
      some (true, Errors.init) ∧
    (validate oracle0 (.choice none [] ["foo"]) (.str "Foo ") Errors.init).map Prod.fst =
      some false ∧
    (∀ (o : PyOracle) (m : Option String) (valid : List PyVal)
      (valid_ic : List String) (s : String) (e : Errors),
      (validate o (.choice m valid valid_ic) (.str s) e).map Prod.fst =
        some (pyIn (.str s) valid || valid_ic.contains (strLower s))) := by
  refine ⟨rfl, by decide, by decide, by decide, ?_⟩
  intro o m valid valid_ic s e
  simp only [validate]
  unfold choice_validate
  by_cases hin : pyIn (.str s) valid = true
  · simp [hin]
  · have hin' : pyIn (.str s) valid = false := Bool.eq_false_iff.mpr hin
    by_cases hic : strLower s ∈ valid_ic
    · simp [hin', hic]
    · simp [hin', hic]

/-- C7 counterexample: validating `['a', 2, 'b']` against a sequence rule
accepting only text yields two diagnostics (both at the segment for index 1),
not exactly one as claimed. -/
theorem claim_C7_counterexample :
    validate oracle0 (.list none [.text none])
      (.list [.str "a", .int 2, .str "b"]) Errors.init =
      some (false, Errors.mk ["[/list:1] must be a `text` value",
        "[/list:1] value '2' is not valid text"] [] (some (-1))) ∧
    (Errors.mk ["[/list:1] must be a `text` value",
      "[/list:1] value '2' is not valid text"] [] (some (-1))).messages.length ≠ 1 := by
  constructor
  · decide
  · decide

/-- C7 amended: the sequence rule validates each element by
alternative-selection inside an opened path segment labelled with the index
of the first equal element, and `validate` succeeds iff no new diagnostics
were added during the call; validating `['a', 2, 'b']` against a
text-only sequence rule produces exactly two diagnostics, both referencing
the path segment for index 1. -/
theorem claim_C7_amended (o : PyOracle) (m : Option String) (rules : List Rule)
    (d : PyVal) (e : Errors) :
    (∃ b e', validate o (.list m rules) d e = some (b, e') ∧
      (b = true ↔ e'.messages = e.messages)) ∧
    validate oracle0 (.list none [.text none])
      (.list [.str "a", .int 2, .str "b"]) Errors.init =
      some (false, Errors.mk ["[/list:1] must be a `text` value",
        "[/list:1] value '2' is not valid text"] [] (some (-1))) := by
  constructor
  · have hok : ∀ s ∈ toSems o rules, SemOK s := by
      rw [toSems_eq_map]
      intro s hs
      obtain ⟨r', _, rfl⟩ := List.mem_map.mp hs
      exact validate_ok o r'
    cases d with
    | list xs =>
      obtain ⟨ex, hrun, hiff⟩ := list_validate_run (toSems o rules) hok xs e
      refine ⟨_, _, by simp only [validate]; exact hrun, ?_⟩
      constructor
      · intro hb
        have hall := of_decide_eq_true hb
        have hx := hiff.mpr hall
        show e.messages ++ ex = e.messages
        rw [hx, List.append_nil]
      · intro hm
        apply decide_eq_true
        apply hiff.mp
        have hlen := congrArg List.length hm
        simp only [List.length_append] at hlen
        exact List.length_eq_zero.mp (by omega)
    | str s =>
      refine ⟨false, e.add "value must be a list", by simp [validate, list_validate], ?_⟩
      constructor
      · intro hb
        cases hb
      · intro hm
        have hlen := congrArg List.length hm
        rw [Errors.add_messages] at hlen
        simp at hlen
    | int n =>
      refine ⟨false, e.add "value must be a list", by simp [validate, list_validate], ?_⟩
      constructor
      · intro hb
        cases hb
      · intro hm
        have hlen := congrArg List.length hm
        rw [Errors.add_messages] at hlen
        simp at hlen
    | float n =>
      refine ⟨false, e.add "value must be a list", by simp [validate, list_validate], ?_⟩
      constructor
      · intro hb
        cases hb
      · intro hm
        have hlen := congrArg List.length hm
        rw [Errors.add_messages] at hlen
        simp at hlen
    | bool b =>
      refine ⟨false, e.add "value must be a list", by simp [validate, list_validate], ?_⟩
      constructor
      · intro hb
        cases hb
      · intro hm
        have hlen := congrArg List.length hm
        rw [Errors.add_messages] at hlen
        simp at hlen
    | dict es =>
      refine ⟨false, e.add "value must be a list", by simp [validate, list_validate], ?_⟩
      constructor
      · intro hb
        cases hb
      · intro hm
        have hlen := congrArg List.length hm
        rw [Errors.add_messages] at hlen
        simp at hlen
  · decide

theorem validate_item_loop_true (item : PyVal) :
    ∀ (sems : List RuleSem), (∀ sem ∈ sems, SemOK sem) →
    (∃ sem ∈ sems, sem.vble item = true ∧ semB sem item = true) →
    ∀ (count : Nat) (e : Errors),
      ∃ e', validate_item_loop item count sems e = some (true, e') := by
  intro sems
  induction sems with
  | nil =>
    intro _ h _ _
    obtain ⟨_, hmem, _⟩ := h
    cases hmem
  | cons sem rest ih =>
    intro hok hex count e
    have hsem := hok sem (List.mem_cons_self _ _)
    have hrest : ∀ s ∈ rest, SemOK s := fun s hs => hok s (List.mem_cons_of_mem _ hs)
    by_cases hv : sem.vble item = true
    · cases hval : sem.val item e with
      | none =>
        have ht := hsem.total item e hv
        rw [hval] at ht
        cases ht
      | some p =>
        obtain ⟨b, e0⟩ := p
        cases b with
        | true =>
          exact ⟨e0.back_out_errors ((e0.count : Int) - count),
            by simp only [validate_item_loop, hv, if_true, hval]⟩
        | false =>
          have hex' : ∃ s ∈ rest, s.vble item = true ∧ semB s item = true := by
            obtain ⟨s, hmem, hvs, hbs⟩ := hex
            rcases List.mem_cons.mp hmem with rfl | hmem'
            · rw [semB_eq s hsem item e false e0 hval] at hbs
              cases hbs
            · exact ⟨s, hmem', hvs, hbs⟩
          obtain ⟨e', hrun⟩ := ih hrest hex' count e0
          exact ⟨e', by simp only [validate_item_loop, hv, if_true, hval, hrun]⟩
    · have hex' : ∃ s ∈ rest, s.vble item = true ∧ semB s item = true := by
        obtain ⟨s, hmem, hvs, hbs⟩ := hex
        rcases List.mem_cons.mp hmem with rfl | hmem'
        · rw [hvs] at hv
          cases hv rfl
        · exact ⟨s, hmem', hvs, hbs⟩
      obtain ⟨e', hrun⟩ := ih hrest hex' count e
      exact ⟨e', by simp only [validate_item_loop, hv, Bool.false_eq_true, if_false, hrun]⟩

/-- C1: whenever some candidate rule both applies to the item
(`validateable`) and validates it, the shared alternative-selection helper
`validate_item` returns success with the collector's messages exactly as they
were before the call — every diagnostic logged by earlier failed candidates
is rolled back, so the diagnostic count equals the pre-call count.  (The
first such candidate wins: the loop returns at the first applying,
validating rule.) -/
theorem claim_C1 (o : PyOracle) (rules : List Rule) (item : PyVal) (e : Errors)
    (h : ∃ r ∈ rules, r.validateable item = true ∧ vB o r item = true) :
    ∃ e', validate_item item (toSems o rules) e = some (true, e') ∧
      e'.messages = e.messages ∧ e'.count = e.count := by
  have hok : ∀ sem ∈ toSems o rules, SemOK sem := by
    rw [toSems_eq_map]
    intro s hs
    obtain ⟨r', _, rfl⟩ := List.mem_map.mp hs
    exact validate_ok o r'
  have hsemx : ∃ sem ∈ toSems o rules, sem.vble item = true ∧ semB sem item = true := by
    obtain ⟨r, hr, hvbl, hb⟩ := h
    rw [toSems_eq_map]
    exact ⟨toSem o r, List.mem_map_of_mem _ hr, hvbl, hb⟩
  obtain ⟨e0, hloop⟩ := validate_item_loop_true item (toSems o rules) hok hsemx e.count e
  have hvi : validate_item item (toSems o rules) e = some (true, e0) := by
    unfold validate_item
    rw [hloop]
  obtain ⟨b, e', hrun, _, _, _, ht, _⟩ := validate_item_spec item (toSems o rules) hok e
  rw [hvi] at hrun
  obtain ⟨hb, he⟩ : true = b ∧ e0 = e' := by simpa using hrun
  subst he
  have hmsg : e0.messages = e.messages := ht hb.symm
  exact ⟨e0, hvi, hmsg, by simp [Errors.count, hmsg]⟩

/-- C1 witness: a shape-compatible failing `choice` candidate logs a
diagnostic, the following `text` candidate succeeds, and the collector ends
with exactly its pre-call message list. -/
theorem claim_C1_witness :
    ∃ e', validate_item (.str "a")
        (toSems oracle0 [.choice none [] [], .text none])
        (Errors.mk ["old"] [] none) = some (true, e') ∧
      e'.messages = ["old"] ∧ e'.count = 1 := by
  obtain ⟨e', h1, h2, h3⟩ := claim_C1 oracle0 [.choice none [] [], .text none]
    (.str "a") (Errors.mk ["old"] [] none)
    ⟨.text none, List.mem_cons_of_mem _ (List.mem_cons_self _ _), by decide, by decide⟩
  exact ⟨e', h1, h2, h3⟩

/-- Python `==` relates a scalar only to scalar-shaped values. -/
theorem pyEq_scalar_right (v d : PyVal) (hs : v.isScalarLike = true)
    (h : pyEq v d = true) : d.isScalarLike = true := by
  cases v <;> cases d <;>
    simp_all [pyEq, pyNumVal, PyVal.isScalarLike, PyVal.isStr, PyVal.isIntLike,
      PyVal.isFloat]

/-- C3 counterexample: a `path` rule created with `allow_missing` (and
without `allow_replacement`) validates the non-text value `2` even though it
is not `validateable` for it — `validate` short-circuits before any check of
the data. -/
theorem claim_C3_counterexample :
    validate oracle0 (.path none false true) (.int 2) Errors.init =
      some (true, Errors.init) ∧
    Rule.validateable (.path none false true) (.int 2) = false := by
  constructor
  · decide
  · decide

/-- C3 amended: for every rule whose top node is well-shaped (`equals` and
`choice` literals are scalars, and `path` does not combine `allow_missing`
with absent `allow_replacement`), `validate` returning true implies
`validateable`; the excluded `path` configuration returns true for every
value. -/
theorem claim_C3_amended (o : PyOracle) (r : Rule) (hshape : topShapeOK r = true)
    (d : PyVal) (e e' : Errors)
    (hv : validate o r d e = some (true, e')) : r.validateable d = true := by
  cases r with
  | root m valid => rfl
  | any m => rfl
  | choice m valid valid_ic =>
    simp only [validate] at hv
    by_cases hin : pyIn d valid = true
    · obtain ⟨v', hv', heq⟩ := List.any_eq_true.mp hin
      have hvs : v'.isScalarLike = true :=
        List.all_eq_true.mp (by simpa [topShapeOK] using hshape) v' hv'
      show d.isScalarLike = true
      exact pyEq_scalar_right v' d hvs heq
    · have hin' : pyIn d valid = false := Bool.eq_false_iff.mpr hin
      cases d with
      | str s => rfl
      | int n => rfl
      | float n => rfl
      | bool b => rfl
      | list xs => simp [choice_validate, hin'] at hv
      | dict es => simp [choice_validate, hin'] at hv
  | equals m v =>
    simp only [validate] at hv
    obtain ⟨hb, _⟩ : pyEq v d = true ∧ e = e' := by simpa using hv
    exact pyEq_scalar_right v d (by simpa [topShapeOK] using hshape) hb
  | number m =>
    by_cases hd : d.isNumber = true
    · exact hd
    · simp [validate, number_validate, hd] at hv
  | integer m =>
    by_cases hd : d.isIntLike = true
    · exact hd
    · simp [validate, integer_validate, hd] at hv
  | decimal m =>
    by_cases hd : d.isFloat = true
    · exact hd
    · simp [validate, decimal_validate, hd] at hv
  | boolean m =>
    by_cases hd : d.isBool = true
    · exact hd
    · simp [validate, boolean_validate, hd] at hv
  | text m =>
    by_cases hd : d.isStr = true
    · exact hd
    · simp [validate, text_validate, hd] at hv
  | regexp m =>
    cases d with
    | str s => rfl
    | int n => simp [validate, regexp_validate] at hv
    | float n => simp [validate, regexp_validate] at hv
    | bool b => simp [validate, regexp_validate] at hv
    | list xs => simp [validate, regexp_validate] at hv
    | dict es => simp [validate, regexp_validate] at hv
  | regexp_match m rs rj =>
    cases d with
    | str s => rfl
    | int n => simp [validate, regexp_match_validate] at hv
    | float n => simp [validate, regexp_match_validate] at hv
    | bool b => simp [validate, regexp_match_validate] at hv
    | list xs => simp [validate, regexp_match_validate] at hv
    | dict es => simp [validate, regexp_match_validate] at hv
  | interval m rs rj =>
    cases d with
    | str s => rfl
    | int n => simp [validate, regexp_match_validate] at hv
    | float n => simp [validate, regexp_match_validate] at hv
    | bool b => simp [validate, regexp_match_validate] at hv
    | list xs => simp [validate, regexp_match_validate] at hv
    | dict es => simp [validate, regexp_match_validate] at hv
  | url m protocols =>
    cases d with
    | str s => rfl
    | int n => simp [validate, url_validate] at hv
    | float n => simp [validate, url_validate] at hv
    | bool b => simp [validate, url_validate] at hv
    | list xs => simp [validate, url_validate] at hv
    | dict es => simp [validate, url_validate] at hv
  | file m =>
    cases d with
    | str s => rfl
    | int n => simp [validate, file_validate] at hv
    | float n => simp [validate, file_validate] at hv
    | bool b => simp [validate, file_validate] at hv
    | list xs => simp [validate, file_validate] at hv
    | dict es => simp [validate, file_validate] at hv
  | quality m =>
    cases d with
    | str s => rfl
    | int n => simp [validate, quality_validate] at hv
    | float n => simp [validate, quality_validate] at hv
    | bool b => simp [validate, quality_validate] at hv
    | list xs => simp [validate, quality_validate] at hv
    | dict es => simp [validate, quality_validate] at hv
  | quality_requirements m =>
    cases d with
    | str s => rfl
    | int n => simp [validate, quality_requirements_validate] at hv
    | float n => simp [validate, quality_requirements_validate] at hv
    | bool b => simp [validate, quality_requirements_validate] at hv
    | list xs => simp [validate, quality_requirements_validate] at hv
    | dict es => simp [validate, quality_requirements_validate] at hv
  | path m ar am =>
    cases d with
    | str s => rfl
    | int n =>
      cases ar with
      | true => simp [validate, path_validate] at hv
      | false =>
        cases am with
        | true => simp [topShapeOK] at hshape
        | false => simp [validate, path_validate] at hv
    | float n =>
      cases ar with
      | true => simp [validate, path_validate] at hv
      | false =>
        cases am with
        | true => simp [topShapeOK] at hshape
        | false => simp [validate, path_validate] at hv
    | bool b =>
      cases ar with
      | true => simp [validate, path_validate] at hv
      | false =>
        cases am with
        | true => simp [topShapeOK] at hshape
        | false => simp [validate, path_validate] at hv
    | list xs =>
      cases ar with
      | true => simp [validate, path_validate] at hv
      | false =>
        cases am with
        | true => simp [topShapeOK] at hshape
        | false => simp [validate, path_validate] at hv
    | dict es =>
      cases ar with
      | true => simp [validate, path_validate] at hv
      | false =>
        cases am with
        | true => simp [topShapeOK] at hshape
        | false => simp [validate, path_validate] at hv
  | list m valid =>
    cases d with
    | list xs => rfl
    | str s => simp [validate, list_validate] at hv
    | int n => simp [validate, list_validate] at hv
    | float n => simp [validate, list_validate] at hv
    | bool b => simp [validate, list_validate] at hv
    | dict es => simp [validate, list_validate] at hv
  | dict m reject any_key required_keys kvs valid =>
    cases d with
    | dict es => rfl
    | str s => simp [validate, dict_validate] at hv
    | int n => simp [validate, dict_validate] at hv
    | float n => simp [validate, dict_validate] at hv
    | bool b => simp [validate, dict_validate] at hv
    | list xs => simp [validate, dict_validate] at hv

/-- C3 amended witness: a shape-correct rule at a concrete input. -/
theorem claim_C3_amended_witness :
    topShapeOK (Rule.text none) = true ∧
    validate oracle0 (.text none) (.str "a") Errors.init = some (true, Errors.init) ∧
    Rule.validateable (.text none) (.str "a") = true :=
  ⟨by decide, by decide,
    claim_C3_amended oracle0 (.text none) (by decide) (.str "a") Errors.init
      Errors.init (by decide)⟩

/-- C4 counterexample: the `equals` rule returns false without appending any
diagnostic — the collector is completely unchanged. -/
theorem claim_C4_counterexample :
    validate oracle0 (.equals none (.int 1)) (.int 2) Errors.init =
      some (false, Errors.init) ∧ Errors.init.count = 0 := by
  constructor
  · decide
  · decide

/-- C4 amended: every rule kind except `equals` appends at least one
diagnostic before returning false (the diagnostic count strictly increases on
every failed `validate` call); the `equals` rule appends none and relies on
the fallback messages of `validate_item`. -/
theorem claim_C4_amended (o : PyOracle) (r : Rule) (hne : ¬ r.name = "equals")
    (d : PyVal) (e e' : Errors)
    (hv : validate o r d e = some (false, e')) : e.count < e'.count := by
  have haddc : ∀ (e0 : Errors) (msg : String), e0.count < (e0.add msg).count := by
    intro e0 msg
    rw [Errors.add_count]
    omega
  cases r with
  | equals m v => exact absurd rfl hne
  | any m => simp [validate] at hv
  | root m valid =>
    have hok : ∀ s ∈ toSems o valid, SemOK s := by
      rw [toSems_eq_map]
      intro s hs
      obtain ⟨r', _, rfl⟩ := List.mem_map.mp hs
      exact validate_ok o r'
    simp only [validate] at hv
    obtain ⟨b, e0, hrun, _, _, _, _, hf⟩ := validate_item_spec d (toSems o valid) hok e
    rw [hrun] at hv
    obtain ⟨hb, he⟩ : b = false ∧ e0 = e' := by simpa using hv
    subst hb
    subst he
    obtain ⟨ex, hex, hnex⟩ := hf rfl
    have : 0 < ex.length := List.length_pos.mpr hnex
    simp only [Errors.count, hex, List.length_append]
    omega
  | choice m valid valid_ic =>
    by_cases hin : pyIn d valid = true
    · have heq : validate o (.choice m valid valid_ic) d e = some (true, e) := by
        simp [validate, choice_validate, hin]
      rw [heq] at hv
      simp at hv
    · cases d with
      | str s =>
        by_cases hic : strLower s ∈ valid_ic
        · have heq : validate o (.choice m valid valid_ic) (.str s) e = some (true, e) := by
            simp [validate, choice_validate, hin, hic]
          rw [heq] at hv
          simp at hv
        · have heq : validate o (.choice m valid valid_ic) (.str s) e =
              some (false, e.add ("'" ++ s ++ "' is not one of acceptable values: " ++
                String.intercalate ", " (stringSort (valid.map pyStr ++ valid_ic)))) := by
            simp [validate, choice_validate, hin, hic]
          rw [heq] at hv
          have he : e.add ("'" ++ s ++ "' is not one of acceptable values: " ++
              String.intercalate ", " (stringSort (valid.map pyStr ++ valid_ic))) = e' := by
            simpa using hv
          rw [← he]
          exact haddc _ _
      | int n =>
        have heq : validate o (.choice m valid valid_ic) (.int n) e =
            some (false, e.add ("'" ++ pyStr (.int n) ++ "' is not one of acceptable values: " ++
              String.intercalate ", " (stringSort (valid.map pyStr ++ valid_ic)))) := by
          simp [validate, choice_validate, hin]
        rw [heq] at hv
        have he : e.add ("'" ++ pyStr (.int n) ++ "' is not one of acceptable values: " ++
            String.intercalate ", " (stringSort (valid.map pyStr ++ valid_ic))) = e' := by
          simpa using hv
        rw [← he]
        exact haddc _ _
      | float n =>
        have heq : validate o (.choice m valid valid_ic) (.float n) e =
            some (false, e.add ("'" ++ pyStr (.float n) ++ "' is not one of acceptable values: " ++
              String.intercalate ", " (stringSort (valid.map pyStr ++ valid_ic)))) := by
          simp [validate, choice_validate, hin]
        rw [heq] at hv
        have he : e.add ("'" ++ pyStr (.float n) ++ "' is not one of acceptable values: " ++
            String.intercalate ", " (stringSort (valid.map pyStr ++ valid_ic))) = e' := by
          simpa using hv
        rw [← he]
        exact haddc _ _
      | bool b =>
        have heq : validate o (.choice m valid valid_ic) (.bool b) e =
            some (false, e.add ("'" ++ pyStr (.bool b) ++ "' is not one of acceptable values: " ++
              String.intercalate ", " (stringSort (valid.map pyStr ++ valid_ic)))) := by
          simp [validate, choice_validate, hin]
        rw [heq] at hv
        have he : e.add ("'" ++ pyStr (.bool b) ++ "' is not one of acceptable values: " ++
            String.intercalate ", " (stringSort (valid.map pyStr ++ valid_ic))) = e' := by
          simpa using hv
        rw [← he]
        exact haddc _ _
      | list xs =>
        have heq : validate o (.choice m valid valid_ic) (.list xs) e =
            some (false, e.add ("'" ++ pyStr (.list xs) ++ "' is not one of acceptable values: " ++
              String.intercalate ", " (stringSort (valid.map pyStr ++ valid_ic)))) := by
          simp [validate, choice_validate, hin]
        rw [heq] at hv
        have he : e.add ("'" ++ pyStr (.list xs) ++ "' is not one of acceptable values: " ++
            String.intercalate ", " (stringSort (valid.map pyStr ++ valid_ic))) = e' := by
          simpa using hv
        rw [← he]
        exact haddc _ _
      | dict es =>
        have heq : validate o (.choice m valid valid_ic) (.dict es) e =
            some (false, e.add ("'" ++ pyStr (.dict es) ++ "' is not one of acceptable values: " ++
              String.intercalate ", " (stringSort (valid.map pyStr ++ valid_ic)))) := by
          simp [validate, choice_validate, hin]
        rw [heq] at hv
        have he : e.add ("'" ++ pyStr (.dict es) ++ "' is not one of acceptable values: " ++
            String.intercalate ", " (stringSort (valid.map pyStr ++ valid_ic))) = e' := by
          simpa using hv
        rw [← he]
        exact haddc _ _
  | number m =>
    by_cases hd : d.isNumber = true
    · simp [validate, number_validate, hd] at hv
    · have he : e.add ("value " ++ pyStr d ++ " is not valid number") = e' := by
        simpa [validate, number_validate, hd] using hv
      rw [← he]
      exact haddc _ _
  | integer m =>
    by_cases hd : d.isIntLike = true
    · simp [validate, integer_validate, hd] at hv
    · have he : e.add ("value " ++ pyStr d ++ " is not valid integer") = e' := by
        simpa [validate, integer_validate, hd] using hv
      rw [← he]
      exact haddc _ _
  | decimal m =>
    by_cases hd : d.isFloat = true
    · simp [validate, decimal_validate, hd] at hv
    · have he : e.add ("value " ++ pyStr d ++ " is not valid decimal number") = e' := by
        simpa [validate, decimal_validate, hd] using hv
      rw [← he]
      exact haddc _ _
  | boolean m =>
    by_cases hd : d.isBool = true
    · simp [validate, boolean_validate, hd] at hv
    · have he : e.add ("value " ++ pyStr d ++ " is not valid boolean") = e' := by
        simpa [validate, boolean_validate, hd] using hv
      rw [← he]
      exact haddc _ _
  | text m =>
    by_cases hd : d.isStr = true
    · simp [validate, text_validate, hd] at hv
    · have he : e.add ("value " ++ pyStr d ++ " is not valid text") = e' := by
        simpa [validate, text_validate, hd] using hv
      rw [← he]
      exact haddc _ _
  | regexp m =>
    cases d with
    | str s =>
      by_cases hc : o.reCompiles s = true
      · simp [validate, regexp_validate, hc] at hv
      · have he : e.add (s ++ " is not a valid regular expression") = e' := by
          simpa [validate, regexp_validate, hc] using hv
        rw [← he]
        exact haddc _ _
    | int n =>
      have he : e.add "Value should be text" = e' := by
        simpa [validate, regexp_validate] using hv
      rw [← he]
      exact haddc _ _
    | float n =>
      have he : e.add "Value should be text" = e' := by
        simpa [validate, regexp_validate] using hv
      rw [← he]
      exact haddc _ _
    | bool b =>
      have he : e.add "Value should be text" = e' := by
        simpa [validate, regexp_validate] using hv
      rw [← he]
      exact haddc _ _
    | list xs =>
      have he : e.add "Value should be text" = e' := by
        simpa [validate, regexp_validate] using hv
      rw [← he]
      exact haddc _ _
    | dict es =>
      have he : e.add "Value should be text" = e' := by
        simpa [validate, regexp_validate] using hv
      rw [← he]
      exact haddc _ _
  | regexp_match m rs rj =>
    rcases regexp_match_shape o m rs rj (validate o (.regexp_match m rs rj))
      (fun d e => by simp [validate]) d with hb | ⟨mm, hb⟩
    · rw [hb e] at hv
      simp at hv
    · rw [hb e] at hv
      obtain ⟨_, he⟩ : False = false ∧ e.add mm = e' := by simpa using hv
      rw [← he]
      exact haddc _ _
  | interval m rs rj =>
    rcases regexp_match_shape o m rs rj (validate o (.interval m rs rj))
      (fun d e => by simp [validate]) d with hb | ⟨mm, hb⟩
    · rw [hb e] at hv
      simp at hv
    · rw [hb e] at hv
      obtain ⟨_, he⟩ : False = false ∧ e.add mm = e' := by simpa using hv
      rw [← he]
      exact haddc _ _
  | url m protocols =>
    cases d with
    | str s =>
      by_cases hm : o.reMatch ("(" ++ String.intercalate "|" protocols ++
        "):\\/\\/(\\w+:\x7b0,1\x7d\\w*@)?(\\S+)(:[0-9]+)?(\\/|\\/([\\w#!:.?+=&%@!\\-\\/]))?") s = true
      · simp [validate, url_validate, hm] at hv
      · have he : e.add ("value " ++ s ++ " is not a valid url") = e' := by
          simpa [validate, url_validate, hm] using hv
        rw [← he]
        exact haddc _ _
    | int n =>
      have he : e.add "expecting text" = e' := by
        simpa [validate, url_validate] using hv
      rw [← he]
      exact haddc _ _
    | float n =>
      have he : e.add "expecting text" = e' := by
        simpa [validate, url_validate] using hv
      rw [← he]
      exact haddc _ _
    | bool b =>
      have he : e.add "expecting text" = e' := by
        simpa [validate, url_validate] using hv
      rw [← he]
      exact haddc _ _
    | list xs =>
      have he : e.add "expecting text" = e' := by
        simpa [validate, url_validate] using hv
      rw [← he]
      exact haddc _ _
    | dict es =>
      have he : e.add "expecting text" = e' := by
        simpa [validate, url_validate] using hv
      rw [← he]
      exact haddc _ _
  | file m =>
    cases d with
    | str s =>
      by_cases hf : o.isfile (o.expanduser s) = true
      · simp [validate, file_validate, hf] at hv
      · have he : e.add ("File " ++ s ++ " does not exist") = e' := by
          simpa [validate, file_validate, hf] using hv
        rw [← he]
        exact haddc _ _
    | int n => simp [validate, file_validate] at hv
    | float n => simp [validate, file_validate] at hv
    | bool b => simp [validate, file_validate] at hv
    | list xs => simp [validate, file_validate] at hv
    | dict es => simp [validate, file_validate] at hv
  | quality m =>
    cases d with
    | str s =>
      cases hq : o.qualityParse s with
      | none => simp [validate, quality_validate, hq] at hv
      | some msg =>
        have he : e.add msg = e' := by
          simpa [validate, quality_validate, hq] using hv
        rw [← he]
        exact haddc _ _
    | int n => simp [validate, quality_validate] at hv
    | float n => simp [validate, quality_validate] at hv
    | bool b => simp [validate, quality_validate] at hv
    | list xs => simp [validate, quality_validate] at hv
    | dict es => simp [validate, quality_validate] at hv
  | quality_requirements m =>
    cases d with
    | str s =>
      cases hq : o.qualityReqParse s with
      | none => simp [validate, quality_requirements_validate, hq] at hv
      | some msg =>
        have he : e.add ("`" ++ s ++ "` is not a valid quality requirement: " ++ msg) = e' := by
          simpa [validate, quality_requirements_validate, hq] using hv
        rw [← he]
        exact haddc _ _
    | int n => simp [validate, quality_requirements_validate] at hv
    | float n => simp [validate, quality_requirements_validate] at hv
    | bool b => simp [validate, quality_requirements_validate] at hv
    | list xs => simp [validate, quality_requirements_validate] at hv
    | dict es => simp [validate, quality_requirements_validate] at hv
  | path m ar am =>
    cases har : ar with
    | true =>
      cases d with
      | str s =>
        by_cases hc : (!am && !(o.isdir (o.expanduser (match (match o.jinjaSearchStart s with
            | some st => some st
            | none => o.percentSearchStart s) with
            | some st => o.dirname (s.take st)
            | none => s)))) = true
        · have he : e.add ("Path " ++ (match (match o.jinjaSearchStart s with
              | some st => some st
              | none => o.percentSearchStart s) with
              | some st => o.dirname (s.take st)
              | none => s) ++ " does not exist") = e' := by
            simpa [validate, path_validate, path_check, har, hc] using hv
          rw [← he]
          exact haddc _ _
        · simp [validate, path_validate, path_check, har, hc] at hv
      | int n => simp [validate, path_validate, har] at hv
      | float n => simp [validate, path_validate, har] at hv
      | bool b => simp [validate, path_validate, har] at hv
      | list xs => simp [validate, path_validate, har] at hv
      | dict es => simp [validate, path_validate, har] at hv
    | false =>
      cases ham : am with
      | true => simp [validate, path_validate, har, ham] at hv
      | false =>
        cases d with
        | str s =>
          by_cases hc : o.isdir (o.expanduser s) = true
          · simp [validate, path_validate, path_check, har, ham, hc] at hv
          · have he : e.add ("Path " ++ s ++ " does not exist") = e' := by
              simpa [validate, path_validate, path_check, har, ham, hc] using hv
            rw [← he]
            exact haddc _ _
        | int n => simp [validate, path_validate, har, ham] at hv
        | float n => simp [validate, path_validate, har, ham] at hv
        | bool b => simp [validate, path_validate, har, ham] at hv
        | list xs => simp [validate, path_validate, har, ham] at hv
        | dict es => simp [validate, path_validate, har, ham] at hv
  | list m valid =>
    have hok : ∀ s ∈ toSems o valid, SemOK s := by
      rw [toSems_eq_map]
      intro s hs
      obtain ⟨r', _, rfl⟩ := List.mem_map.mp hs
      exact validate_ok o r'
    cases d with
    | list xs =>
      obtain ⟨ex, hrun, hiff⟩ := list_validate_run (toSems o valid) hok xs e
      simp only [validate] at hv
      rw [hrun] at hv
      obtain ⟨hb, he⟩ : decide (∀ v ∈ xs, itemB (toSems o valid) v = true) = false ∧ _ = e' := by
        simpa using hv
      have hnex : ex ≠ [] := by
        intro hx
        exact absurd (decide_eq_true (hiff.mp hx)) (by rw [hb]; simp)
      have hlp : 0 < ex.length := List.length_pos.mpr hnex
      rw [← he]
      simp only [Errors.count, List.length_append]
      omega
    | str s =>
      have he : e.add "value must be a list" = e' := by
        simpa [validate, list_validate] using hv
      rw [← he]
      exact haddc _ _
    | int n =>
      have he : e.add "value must be a list" = e' := by
        simpa [validate, list_validate] using hv
      rw [← he]
      exact haddc _ _
    | float n =>
      have he : e.add "value must be a list" = e' := by
        simpa [validate, list_validate] using hv
      rw [← he]
      exact haddc _ _
    | bool b =>
      have he : e.add "value must be a list" = e' := by
        simpa [validate, list_validate] using hv
      rw [← he]
      exact haddc _ _
    | dict es =>
      have he : e.add "value must be a list" = e' := by
        simpa [validate, list_validate] using hv
      rw [← he]
      exact haddc _ _
  | dict m reject any_key required_keys kvs valid =>
    have hok : DictSemOK ⟨reject, toSems o any_key, required_keys,
        toSemPairs o kvs, toSemsAssoc o valid⟩ := by
      refine ⟨?_, ?_, ?_⟩
      · intro s hs
        rw [toSems_eq_map] at hs
        obtain ⟨r', _, rfl⟩ := List.mem_map.mp hs
        exact validate_ok o r'
      · intro p hp
        rw [toSemPairs_eq_map] at hp
        obtain ⟨⟨a, b⟩, _, rfl⟩ := List.mem_map.mp hp
        exact ⟨validate_ok o a, validate_ok o b⟩
      · intro kv hkv s hs
        rw [toSemsAssoc_eq_map] at hkv
        obtain ⟨⟨k, rls⟩, _, rfl⟩ := List.mem_map.mp hkv
        simp only at hs
        rw [toSems_eq_map] at hs
        obtain ⟨r', _, rfl⟩ := List.mem_map.mp hs
        exact validate_ok o r'
    cases d with
    | dict es =>
      obtain ⟨ex, hrun, hiff⟩ := dict_validate_run
        ⟨reject, toSems o any_key, required_keys, toSemPairs o kvs, toSemsAssoc o valid⟩
        hok es e
      simp only [validate] at hv
      rw [hrun] at hv
      obtain ⟨hb, he⟩ : dictB _ es = false ∧ _ = e' := by simpa using hv
      have hne : ¬ (ex = [] ∧ missingRequired ⟨reject, toSems o any_key, required_keys,
          toSemPairs o kvs, toSemsAssoc o valid⟩ es = []) := by
        rintro ⟨hx, hmz⟩
        have h1 : (es.any fun kv => dictKeyFails ⟨reject, toSems o any_key, required_keys,
            toSemPairs o kvs, toSemsAssoc o valid⟩ kv.1 kv.2) = false := by
          rw [List.any_eq_false]
          intro kv hkv
          simp [hiff.mp hx kv hkv]
        have h2 : (required_keys.all fun k => es.any fun kv => kv.1 == k) = true := by
          rw [List.all_eq_true]
          intro k hk
          by_contra hnk
          have : k ∈ missingRequired ⟨reject, toSems o any_key, required_keys,
              toSemPairs o kvs, toSemsAssoc o valid⟩ es := by
            unfold missingRequired
            rw [List.mem_filter]
            exact ⟨hk, by simp [Bool.eq_false_iff.mpr hnk]⟩
          rw [hmz] at this
          cases this
        rw [show dictB ⟨reject, toSems o any_key, required_keys,
            toSemPairs o kvs, toSemsAssoc o valid⟩ es =
          (!(es.any fun kv => dictKeyFails ⟨reject, toSems o any_key, required_keys,
            toSemPairs o kvs, toSemsAssoc o valid⟩ kv.1 kv.2) &&
           (required_keys.all fun k => es.any fun kv => kv.1 == k)) from rfl, h1, h2] at hb
        simp at hb
      rw [← he]
      simp only [Errors.count, List.length_append, List.length_map]
      have hlen : 0 < ex.length + (missingRequired ⟨reject, toSems o any_key, required_keys,
          toSemPairs o kvs, toSemsAssoc o valid⟩ es).length := by
        by_contra hz
        push_neg at hz
        apply hne
        constructor
        · exact List.length_eq_zero.mp (by omega)
        · exact List.length_eq_zero.mp (by omega)
      omega
    | str s =>
      have he : e.add "value must be a dictionary" = e' := by
        simpa [validate, dict_validate] using hv
      rw [← he]
      exact haddc _ _
    | int n =>
      have he : e.add "value must be a dictionary" = e' := by
        simpa [validate, dict_validate] using hv
      rw [← he]
      exact haddc _ _
    | float n =>
      have he : e.add "value must be a dictionary" = e' := by
        simpa [validate, dict_validate] using hv
      rw [← he]
      exact haddc _ _
    | bool b =>
      have he : e.add "value must be a dictionary" = e' := by
        simpa [validate, dict_validate] using hv
      rw [← he]
      exact haddc _ _
    | list xs =>
      have he : e.add "value must be a dictionary" = e' := by
        simpa [validate, dict_validate] using hv
      rw [← he]
      exact haddc _ _

/-- C4 amended witness: the failed `text` rule on the number `5` appends
exactly one diagnostic. -/
theorem claim_C4_amended_witness :
    Errors.init.count < (Errors.mk ["[/] value 5 is not valid text"] [] none).count :=
  claim_C4_amended oracle0 (.text none) (by decide) (.int 5) Errors.init
    (Errors.mk ["[/] value 5 is not valid text"] [] none) (by decide)

theorem lookupStr_toSemsAssoc (o : PyOracle) (k : String) :
    ∀ valid : List (String × List Rule),
      lookupStr k (toSemsAssoc o valid) = (lookupStr k valid).map (toSems o) := by
  intro valid
  induction valid with
  | nil => simp [toSemsAssoc, lookupStr]
  | cons p rest ih =>
    obtain ⟨k', rs⟩ := p
    by_cases hk : (k' == k) = true
    · simp [toSemsAssoc, lookupStr, hk]
    · simp only [toSemsAssoc, lookupStr, hk, Bool.false_eq_true, if_false]
      exact ih

theorem toSemsAssoc_keys (o : PyOracle) (valid : List (String × List Rule)) :
    (toSemsAssoc o valid).map (fun kv => kv.1) = valid.map (fun kv => kv.1) := by
  rw [toSemsAssoc_eq_map, List.map_map]
  rfl

theorem toSemsAssoc_isEmpty (o : PyOracle) (valid : List (String × List Rule)) :
    (toSemsAssoc o valid).isEmpty = valid.isEmpty := by
  cases valid with
  | nil => rfl
  | cons p rest => rw [toSemsAssoc_eq_map]; rfl

/-- C2: per-key dispatch of the mapping rule.  With the mapping state `ds`
that `validate` actually uses, a key in the reject set yields only the
forbidden-key diagnostic (templated when a message was registered); otherwise
a key with explicit per-key rules runs exactly those rules; otherwise the
first key-predicate pair (in registration order) whose key validator applies
to and accepts the key supplies the value rule, falling back to the catch-all
rules, with diagnostics produced while probing key predicates backed out
whenever some rules were selected; with no rules at all, a single
`not recognized` diagnostic is added, listing the sorted explicit keys when
any exist, and with rules the value is run through `validate_item`. -/
theorem claim_C2 (o : PyOracle) (m : Option String)
    (reject : List (String × Option String)) (any_key : List Rule)
    (required_keys : List String) (kvs : List (Rule × Rule))
    (valid : List (String × List Rule)) (ds : DictSem)
    (hds : ds = ⟨reject, toSems o any_key, required_keys,
      toSemPairs o kvs, toSemsAssoc o valid⟩)
    (key : String) (value : PyVal) (e : Errors) :
    validate o (.dict m reject any_key required_keys kvs valid) =
      dict_validate ds ∧
    (∀ msg?, lookupStr key reject = some msg? →
      dict_process_key ds key value e =
        some (e.add (match msg? with
          | some mm => templateSubstituteKey mm key
          | none => "key '" ++ key ++ "' is forbidden here"))) ∧
    (lookupStr key reject = none →
      ∀ rs, lookupStr key valid = some rs →
        dict_process_key ds key value e =
          dict_finish_key ds key value (toSems o rs) e) ∧
    (lookupStr key reject = none → lookupStr key valid = none →
      ∀ found e1, key_validators_loop key ds.key_validators e = some (found, e1) →
        found = (ds.key_validators.find? (fun kv =>
            kv.1.vble (.str key) && semB kv.1 (.str key))).map Prod.snd ∧
        dict_process_key ds key value e =
          dict_finish_key ds key value
            (match found with | some vv => [vv] | none => ds.any_key)
            (if (match found with
                | some vv => ([vv] : List RuleSem)
                | none => ds.any_key).isEmpty then e1
             else e1.back_out_errors ((e1.count : Int) - e.count))) ∧
    (∀ e2, dict_finish_key ds key value [] e2 =
      some (e2.add ("key '" ++ key ++ "' is not recognized" ++
        (if valid.isEmpty then ""
         else ", valid keys: " ++
           String.intercalate ", " (stringSort (valid.map (fun kv => kv.1))))))) ∧
    (∀ rules e2, rules ≠ [] →
      dict_finish_key ds key value rules e2 =
        (validate_item value rules e2).map Prod.snd) := by
  subst hds
  refine ⟨rfl, ?_, ?_, ?_, ?_, ?_⟩
  · intro msg? hrej
    cases msg? with
    | some mm => simp [dict_process_key, hrej]
    | none => simp [dict_process_key, hrej]
  · intro hrej rs hvl
    have hvl' : lookupStr key (toSemsAssoc o valid) = some (toSems o rs) := by
      rw [lookupStr_toSemsAssoc, hvl, Option.map_some']
    simp only [dict_process_key, hrej, hvl']
  · intro hrej hvl found e1 hrun
    have hvl' : lookupStr key (toSemsAssoc o valid) = none := by
      rw [lookupStr_toSemsAssoc, hvl, Option.map_none']
    have hok1 : ∀ p ∈ toSemPairs o kvs, SemOK p.1 := by
      rw [toSemPairs_eq_map]
      intro p hp
      obtain ⟨⟨a, b⟩, _, rfl⟩ := List.mem_map.mp hp
      exact validate_ok o a
    obtain ⟨e1', hrun', _, _, _⟩ := key_validators_loop_spec key (toSemPairs o kvs) hok1 e
    have hfound : found = (List.find? (fun kv =>
        kv.1.vble (.str key) && semB kv.1 (.str key)) (toSemPairs o kvs)).map Prod.snd ∧
        e1 = e1' := by
      rw [hrun] at hrun'
      have h := hrun'
      simp only [Option.some.injEq, Prod.mk.injEq] at h
      exact ⟨h.1, h.2⟩
    refine ⟨hfound.1, ?_⟩
    simp only [dict_process_key, hrej, hvl', hrun]
  · intro e2
    simp only [dict_finish_key, List.isEmpty_nil, if_true]
    rw [toSemsAssoc_isEmpty, toSemsAssoc_keys]
  · intro rules e2 hne
    have hr' : rules.isEmpty = false := by
      cases rules with
      | nil => exact absurd rfl hne
      | cons a l => rfl
    cases hvi : validate_item value rules e2 with
    | none => simp [dict_finish_key, hr', hvi]
    | some p =>
      obtain ⟨b, e3⟩ := p
      simp [dict_finish_key, hr', hvi]

/-- C2 witness: the key `foo` is in the reject set (with no registered
message), so only the forbidden-key diagnostic is produced. -/
theorem claim_C2_witness :
    dict_process_key
      ⟨[("foo", none)], toSems oracle0 [], [], toSemPairs oracle0 [],
        toSemsAssoc oracle0 [("a", [.text none])]⟩
      "foo" (.int 1) Errors.init =
      some (Errors.init.add "key 'foo' is forbidden here") :=
  (claim_C2 oracle0 none [("foo", none)] [] [] [] [("a", [.text none])] _ rfl
    "foo" (.int 1) Errors.init).2.1 none rfl

/-- C8: on two enumerations of the same key-value pairs the mapping rule
returns the same boolean; each run appends, after the per-key diagnostics,
exactly one `required` diagnostic per absent required key (the filter of the
required keys by absence, itself enumeration-independent). -/
theorem claim_C8 (o : PyOracle) (m : Option String)
    (reject : List (String × Option String)) (any_key : List Rule)
    (required_keys : List String) (kvs : List (Rule × Rule))
    (valid : List (String × List Rule)) (ds : DictSem)
    (hds : ds = ⟨reject, toSems o any_key, required_keys,
      toSemPairs o kvs, toSemsAssoc o valid⟩)
    (entries1 entries2 : List (String × PyVal)) (hperm : entries1.Perm entries2)
    (e : Errors) :
    (validate o (.dict m reject any_key required_keys kvs valid)
        (.dict entries1) e).map Prod.fst =
      (validate o (.dict m reject any_key required_keys kvs valid)
        (.dict entries2) e).map Prod.fst ∧
    missingRequired ds entries1 = missingRequired ds entries2 ∧
    ∀ entries ∈ [entries1, entries2], ∃ ex,
      validate o (.dict m reject any_key required_keys kvs valid)
        (.dict entries) e =
      some (dictB ds entries,
        ⟨e.messages ++ ex ++ (missingRequired ds entries).map
          (fun k => "[/" ++ String.intercalate "/" e.path ++ "] " ++
            ("key '" ++ k ++ "' required")),
         e.path, some ((e.path.length : Int) - 1)⟩) := by
  subst hds
  have hok : DictSemOK ⟨reject, toSems o any_key, required_keys,
      toSemPairs o kvs, toSemsAssoc o valid⟩ := by
    refine ⟨?_, ?_, ?_⟩
    · rw [toSems_eq_map]
      intro s hs
      obtain ⟨r', _, rfl⟩ := List.mem_map.mp hs
      exact validate_ok o r'
    · rw [toSemPairs_eq_map]
      intro p hp
      obtain ⟨⟨a, b⟩, _, rfl⟩ := List.mem_map.mp hp
      exact ⟨validate_ok o a, validate_ok o b⟩
    · rw [toSemsAssoc_eq_map]
      intro kv hkv s hs
      obtain ⟨⟨k, rs⟩, _, rfl⟩ := List.mem_map.mp hkv
      simp only at hs
      rw [toSems_eq_map] at hs
      obtain ⟨r', _, rfl⟩ := List.mem_map.mp hs
      exact validate_ok o r'
  have hany : ∀ (f : String × PyVal → Bool), entries1.any f = entries2.any f := by
    intro f
    cases h1 : entries1.any f with
    | true =>
      obtain ⟨x, hx, hfx⟩ := List.any_eq_true.mp h1
      exact (List.any_eq_true.mpr ⟨x, hperm.mem_iff.mp hx, hfx⟩).symm
    | false =>
      cases h2 : entries2.any f with
      | false => rfl
      | true =>
        obtain ⟨x, hx, hfx⟩ := List.any_eq_true.mp h2
        rw [← h1]
        exact List.any_eq_true.mpr ⟨x, hperm.mem_iff.mpr hx, hfx⟩
  have hfun : ∀ k : String, (entries1.any fun kv => kv.1 == k) =
      (entries2.any fun kv => kv.1 == k) := fun k => hany _
  have hmiss : missingRequired
      ⟨reject, toSems o any_key, required_keys, toSemPairs o kvs,
        toSemsAssoc o valid⟩ entries1 =
      missingRequired
      ⟨reject, toSems o any_key, required_keys, toSemPairs o kvs,
        toSemsAssoc o valid⟩ entries2 := by
    simp only [missingRequired]
    have hpred : (fun k : String => !(entries1.any fun kv => kv.1 == k)) =
        (fun k : String => !(entries2.any fun kv => kv.1 == k)) := by
      funext k
      rw [hfun k]
    rw [hpred]
  have hdb : dictB
      ⟨reject, toSems o any_key, required_keys, toSemPairs o kvs,
        toSemsAssoc o valid⟩ entries1 =
      dictB
      ⟨reject, toSems o any_key, required_keys, toSemPairs o kvs,
        toSemsAssoc o valid⟩ entries2 := by
    simp only [dictB]
    rw [hany (fun kv => dictKeyFails
      ⟨reject, toSems o any_key, required_keys, toSemPairs o kvs,
        toSemsAssoc o valid⟩ kv.1 kv.2)]
    have hpred : (fun k : String => entries1.any fun kv => kv.1 == k) =
        (fun k : String => entries2.any fun kv => kv.1 == k) := by
      funext k
      rw [hfun k]
    rw [hpred]
  obtain ⟨ex1, hrun1, _⟩ := dict_validate_run
    ⟨reject, toSems o any_key, required_keys, toSemPairs o kvs,
      toSemsAssoc o valid⟩ hok entries1 e
  obtain ⟨ex2, hrun2, _⟩ := dict_validate_run
    ⟨reject, toSems o any_key, required_keys, toSemPairs o kvs,
      toSemsAssoc o valid⟩ hok entries2 e
  refine ⟨?_, hmiss, ?_⟩
  · simp only [validate]
    rw [hrun1, hrun2]
    simp only [Option.map_some']
    rw [hdb]
  · intro entries hentries
    simp only [List.mem_cons, List.mem_singleton, List.not_mem_nil, or_false] at hentries
    cases hentries with
    | inl h => exact ⟨ex1, by rw [h]; simpa only [validate] using hrun1⟩
    | inr h => exact ⟨ex2, by rw [h]; simpa only [validate] using hrun2⟩

/-- C8 witness: swapping the two present keys of a mapping input leaves the
boolean result unchanged. -/
theorem claim_C8_witness :
    (validate oracle0
        (.dict none [] [] ["c"] [] [("a", [.text none]), ("b", [.integer none])])
        (.dict [("a", .str "x"), ("b", .int 2)]) Errors.init).map Prod.fst =
      (validate oracle0
        (.dict none [] [] ["c"] [] [("a", [.text none]), ("b", [.integer none])])
        (.dict [("b", .int 2), ("a", .str "x")]) Errors.init).map Prod.fst :=
  (claim_C8 oracle0 none [] [] ["c"] []
    [("a", [.text none]), ("b", [.integer none])] _ rfl
    [("a", .str "x"), ("b", .int 2)] [("b", .int 2), ("a", .str "x")]
    (List.Perm.swap _ _ _) Errors.init).1

/-- C6: `DictValidator.schema` never returns the described `properties`
document for an explicit key with rules — it raises as soon as some key has a
non-empty rule list (the `properties` loop hands `any_schema` a generator of
raw validator objects, and `len` of a generator raises `TypeError`), so the
embedded schema is `none` on the one-keyed mapping and on every mapping with
a non-empty explicit rule list. -/
theorem claim_C6 :
    Rule.schema (.dict none [] [] [] [] [("a", [.text none])]) = none ∧
    ∀ (m : Option String) (reject : List (String × Option String))
      (any_key : List Rule) (required_keys : List String)
      (kvs : List (Rule × Rule)) (valid : List (String × List Rule)),
      (valid.all fun kv => kv.2.isEmpty) = false →
      Rule.schema (.dict m reject any_key required_keys kvs valid) = none := by
  constructor
  · rfl
  · intro m reject any_key required_keys kvs valid h
    simp [Rule.schema, h]

/-- C6 witness: a mapping whose key `b` carries an `integer` rule has a
raising schema computation. -/
theorem claim_C6_witness :
    Rule.schema (.dict none [] [] [] [] [("b", [.integer none])]) = none :=
  claim_C6.2 none [] [] [] [] [("b", [.integer none])] (by decide)
